import Mathlib

/-!
Shallow embedding of the core of `src/recommender1.py` (IPO portfolio
optimizer): scoring, candidate building, the greedy allocator
`greedy_fill_full`, the MILP post-processing of `allocate_balanced`, and the
selection policy of `main`.  Python floats are modelled as `ℚ` (all the
arithmetic the claims touch is exact on the inputs considered), Python `None`
as `Option`, and a Python function that can raise or diverge returns
`Option` with `none` for the non-returning case.  Free-text regex extraction
(the spec's external "Field Normalizer") is modelled by input types that
carry the already-extracted match data, faithful to what each regex can
produce.
-/

/-- Configuration constant `MIN_INVEST_MAINBOARD = 15000` (line 17). -/
def MIN_INVEST_MAINBOARD : ℚ := 15000

/-- Configuration constant `DEFAULT_MAX_LOTS_PER_IPO = 3` (line 18). -/
def DEFAULT_MAX_LOTS_PER_IPO : ℤ := 3

/-- Configuration constant `DIVERSIFICATION_WEIGHT = 0.10` (line 19). -/
def DIVERSIFICATION_WEIGHT : ℚ := 1/10

/-- Configuration constant `TOP_FILL_K = 3` (line 20). -/
def TOP_FILL_K : ℕ := 3

/-- A candidate as consumed by the allocation engine: the three fields of the
candidate dict that `greedy_fill_full` and `allocate_balanced` read
(`"ipo"`, `"composite"`, `"min_invest"`). -/
structure Cand where
  ipo : String
  composite : ℚ
  min_invest : ℚ
deriving Repr, DecidableEq

/-- One allocation line, mirroring the dicts built at lines 292/306/322 and
366: keys `"ipo"`, `"lots"`, `"min_invest"`, `"invested"`, `"composite"`. -/
structure AllocLine where
  ipo : String
  lots : ℕ
  min_invest : ℚ
  invested : ℚ
  composite : ℚ
deriving Repr, DecidableEq

/-- Density key `c["composite"]/c["min_invest"]` used by the sorts at
line 285 and the drain pick at line 316.  (On a candidate with
`min_invest = 0` Python would raise `ZeroDivisionError`; in `ℚ` the division
yields `0`, and `greedy_fill_full` below still returns `none` for such
inputs via its `min_unit` guard.) -/
def density (c : Cand) : ℚ := c.composite / c.min_invest

/-- Stable descending sort by density: `sorted(candidates, key=density,
reverse=True)` (line 285).  Python's sort is stable; a stable sort is
extensionally determined by the key order, so Mathlib's insertion sort with
relation "earlier element stays in front unless strictly denser element
follows" computes the same list. -/
def sortByDensityDesc (cs : List Cand) : List Cand :=
  cs.insertionSort (fun a b => density b ≤ density a)

/-- Stable descending sort by composite: `sorted(allocation,
key=lambda x: x["composite"], reverse=True)` (line 325). -/
def sortByCompositeDesc (ls : List AllocLine) : List AllocLine :=
  ls.insertionSort (fun a b => b.composite ≤ a.composite)

/-- Python `max(l, key=f)` for a nonempty list `a :: l`: returns the first
element attaining the maximal key (later elements replace the current best
only on a strictly greater key). -/
def pyMaxBy (f : Cand → ℚ) (a : Cand) (l : List Cand) : Cand :=
  l.foldl (fun b x => if f b < f x then x else b) a

/-- A fresh allocation line for one lot of `c` (lines 292, 306, 322). -/
def mkLine (c : Cand) : AllocLine :=
  ⟨c.ipo, 1, c.min_invest, c.min_invest, c.composite⟩

/-- Add one lot of `c` to the allocation: `next((a for a in allocation if
a["ipo"] == c["ipo"]), None)` is bumped in place, otherwise a fresh line is
appended (lines 301-307 and 317-323). -/
def addLot (alloc : List AllocLine) (c : Cand) : List AllocLine :=
  match alloc with
  | [] => [mkLine c]
  | a :: rest =>
    if a.ipo = c.ipo then
      { a with lots := a.lots + 1, invested := a.invested + c.min_invest } :: rest
    else
      a :: addLot rest c

/-- Total money in an allocation list: `sum(a["invested"] for a in alloc)`. -/
def sumInvested (alloc : List AllocLine) : ℚ :=
  (alloc.map AllocLine.invested).sum

/-- The global minimum investment unit `min_unit = min(c["min_invest"] for c
in candidates)` over a nonempty candidate list `c :: cs` (line 288). -/
def minUnitOf (c : Cand) (cs : List Cand) : ℚ :=
  (cs.map Cand.min_invest).foldl min c.min_invest

/-- Seed pass (lines 290-293): one lot for each candidate in density order
while it still fits.  New lines are appended unconditionally. -/
def seedPass : List Cand → List AllocLine → ℚ → List AllocLine × ℚ
  | [], alloc, rem => (alloc, rem)
  | c :: cs, alloc, rem =>
    if c.min_invest ≤ rem then
      seedPass cs (alloc ++ [mkLine c]) (rem - c.min_invest)
    else
      seedPass cs alloc rem

/-- One sweep of the top-K repeat pass, the `for c in top_k` body
(lines 299-310): add a lot for each affordable candidate, flagging `added`,
and break out of the sweep as soon as `remaining < min_unit`. -/
def sweepTopK (minUnit : ℚ) :
    List Cand → List AllocLine → ℚ → Bool → List AllocLine × ℚ × Bool
  | [], alloc, rem, added => (alloc, rem, added)
  | c :: cs, alloc, rem, added =>
    let s : List AllocLine × ℚ × Bool :=
      if c.min_invest ≤ rem then (addLot alloc c, rem - c.min_invest, true)
      else (alloc, rem, added)
    if s.2.1 < minUnit then s else sweepTopK minUnit cs s.1 s.2.1 s.2.2

theorem foldl_min_le_init : ∀ (l : List ℚ) (a : ℚ), l.foldl min a ≤ a := by
  intro l
  induction l with
  | nil => intro a; exact le_refl a
  | cons x xs ih =>
    intro a
    calc (x :: xs).foldl min a = xs.foldl min (min a x) := rfl
    _ ≤ min a x := ih (min a x)
    _ ≤ a := min_le_left a x

theorem foldl_min_le_mem : ∀ (l : List ℚ) (a x : ℚ), x ∈ l → l.foldl min a ≤ x := by
  intro l
  induction l with
  | nil => intro a x hx; cases hx
  | cons y ys ih =>
    intro a x hx
    rcases List.mem_cons.mp hx with h | h
    · subst h
      calc (x :: ys).foldl min a = ys.foldl min (min a x) := rfl
      _ ≤ min a x := foldl_min_le_init ys (min a x)
      _ ≤ x := min_le_right a x
    · exact ih (min a y) x h

theorem foldl_min_attained : ∀ (l : List ℚ) (a : ℚ),
    l.foldl min a = a ∨ l.foldl min a ∈ l := by
  intro l
  induction l with
  | nil => intro a; exact Or.inl rfl
  | cons x xs ih =>
    intro a
    rcases ih (min a x) with h | h
    · rcases le_total a x with hax | hxa
      · left
        calc (x :: xs).foldl min a = xs.foldl min (min a x) := rfl
        _ = min a x := h
        _ = a := min_eq_left hax
      · right
        have : (x :: xs).foldl min a = x := by
          calc (x :: xs).foldl min a = xs.foldl min (min a x) := rfl
          _ = min a x := h
          _ = x := min_eq_right hxa
        rw [this]; exact List.mem_cons_self x xs
    · right
      exact List.mem_cons_of_mem x h

theorem minUnitOf_le (c : Cand) (cs : List Cand) :
    ∀ x ∈ c :: cs, minUnitOf c cs ≤ x.min_invest := by
  intro x hx
  rcases List.mem_cons.mp hx with h | h
  · subst h; exact foldl_min_le_init _ _
  · exact foldl_min_le_mem _ _ _ (List.mem_map_of_mem Cand.min_invest h)

theorem minUnitOf_attained (c : Cand) (cs : List Cand) :
    ∃ x ∈ c :: cs, x.min_invest = minUnitOf c cs := by
  rcases foldl_min_attained (cs.map Cand.min_invest) c.min_invest with h | h
  · exact ⟨c, List.mem_cons_self c cs, h.symm⟩
  · rcases List.mem_map.mp h with ⟨x, hx, hfx⟩
    exact ⟨x, List.mem_cons_of_mem c hx, hfx⟩

theorem pyMaxBy_mem (f : Cand → ℚ) : ∀ (l : List Cand) (a : Cand),
    pyMaxBy f a l ∈ a :: l := by
  intro l
  induction l with
  | nil => intro a; exact List.mem_cons_self a []
  | cons x xs ih =>
    intro a
    have hstep : pyMaxBy f a (x :: xs) = pyMaxBy f (if f a < f x then x else a) xs := rfl
    rw [hstep]
    rcases List.mem_cons.mp (ih (if f a < f x then x else a)) with h | h
    · rw [h]
      by_cases hfa : f a < f x
      · simp [hfa]
      · simp [hfa]
    · exact List.mem_cons_of_mem a (List.mem_cons_of_mem x h)

/-- Measure decrease for the repeat and drain loops: deducting at least one
positive global minimum unit strictly decreases `⌊rem / minUnit⌋`. -/
theorem floor_div_toNat_lt {m r r' : ℚ} (hm : 0 < m) (hr : m ≤ r)
    (h1 : r' ≤ r - m) (h2 : 0 ≤ r') : (⌊r' / m⌋).toNat < (⌊r / m⌋).toNat := by
  have hrm : (r - m) / m = r / m - 1 := by field_simp
  have h3 : r' / m ≤ r / m - 1 := by
    rw [← hrm]
    exact (div_le_div_iff_of_pos_right hm).mpr h1
  have h4 : ⌊r' / m⌋ ≤ ⌊r / m⌋ - 1 := by
    have := Int.floor_le_floor h3
    rwa [Int.floor_sub_one] at this
  have h5 : (0 : ℤ) ≤ ⌊r' / m⌋ := Int.floor_nonneg.mpr (div_nonneg h2 hm.le)
  omega

/-- Along a sweep the remaining budget never increases (every deduction is a
`min_invest` bounded below by the positive `minUnit`). -/
theorem sweepTopK_rem_le (minUnit : ℚ) (hpos : 0 < minUnit) :
    ∀ (cs : List Cand) (alloc : List AllocLine) (rem : ℚ) (added : Bool),
      (∀ x ∈ cs, minUnit ≤ x.min_invest) →
      (sweepTopK minUnit cs alloc rem added).2.1 ≤ rem := by
  intro cs
  induction cs with
  | nil => intro alloc rem added _; exact le_refl rem
  | cons c cs ih =>
    intro alloc rem added hmin
    have hc : minUnit ≤ c.min_invest := hmin c (List.mem_cons_self c cs)
    have hcs : ∀ x ∈ cs, minUnit ≤ x.min_invest :=
      fun x hx => hmin x (List.mem_cons_of_mem c hx)
    show (sweepTopK minUnit (c :: cs) alloc rem added).2.1 ≤ rem
    rw [sweepTopK]
    by_cases hfit : c.min_invest ≤ rem
    · simp only [if_pos hfit]
      have hsub : rem - c.min_invest ≤ rem := by linarith
      by_cases hbr : rem - c.min_invest < minUnit
      · simpa [hbr] using hsub
      · simp only [hbr, if_neg]
        exact le_trans (ih (addLot alloc c) (rem - c.min_invest) true hcs) hsub
    · simp only [if_neg hfit]
      by_cases hbr : rem < minUnit
      · simp [hbr]
      · simp only [hbr, if_neg]
        exact ih alloc rem added hcs

/-- Once the remaining budget is nonnegative it stays nonnegative through a
sweep (a lot is added only when it fits). -/
theorem sweepTopK_rem_nonneg (minUnit : ℚ) :
    ∀ (cs : List Cand) (alloc : List AllocLine) (rem : ℚ) (added : Bool),
      0 ≤ rem → 0 ≤ (sweepTopK minUnit cs alloc rem added).2.1 := by
  intro cs
  induction cs with
  | nil => intro alloc rem added h; exact h
  | cons c cs ih =>
    intro alloc rem added hrem
    rw [sweepTopK]
    by_cases hfit : c.min_invest ≤ rem
    · simp only [if_pos hfit]
      have h0 : (0 : ℚ) ≤ rem - c.min_invest := by linarith
      by_cases hbr : rem - c.min_invest < minUnit
      · simpa [hbr] using h0
      · simp only [hbr, if_neg]
        exact ih (addLot alloc c) (rem - c.min_invest) true h0
    · simp only [if_neg hfit]
      by_cases hbr : rem < minUnit
      · simpa [hbr] using hrem
      · simp only [hbr, if_neg]
        exact ih alloc rem added hrem

/-- A sweep entered with `added = false` that comes back with `added = true`
has bought at least one lot, so it has spent at least `minUnit` and left a
nonnegative remainder. -/
theorem sweepTopK_progress (minUnit : ℚ) (hpos : 0 < minUnit) :
    ∀ (cs : List Cand) (alloc : List AllocLine) (rem : ℚ),
      (∀ x ∈ cs, minUnit ≤ x.min_invest) →
      (sweepTopK minUnit cs alloc rem false).2.2 = true →
      0 ≤ (sweepTopK minUnit cs alloc rem false).2.1 ∧
        (sweepTopK minUnit cs alloc rem false).2.1 ≤ rem - minUnit := by
  intro cs
  induction cs with
  | nil => intro alloc rem _ h; exact absurd h (by simp [sweepTopK])
  | cons c cs ih =>
    intro alloc rem hmin hadd
    have hc : minUnit ≤ c.min_invest := hmin c (List.mem_cons_self c cs)
    have hcs : ∀ x ∈ cs, minUnit ≤ x.min_invest :=
      fun x hx => hmin x (List.mem_cons_of_mem c hx)
    rw [sweepTopK] at hadd ⊢
    by_cases hfit : c.min_invest ≤ rem
    · simp only [if_pos hfit] at hadd ⊢
      have h0 : (0 : ℚ) ≤ rem - c.min_invest := by linarith
      have h1 : rem - c.min_invest ≤ rem - minUnit := by linarith
      by_cases hbr : rem - c.min_invest < minUnit
      · simp only [hbr, if_pos] at hadd ⊢
        exact ⟨h0, h1⟩
      · simp only [hbr, if_neg] at hadd ⊢
        refine ⟨sweepTopK_rem_nonneg minUnit cs _ _ true h0, ?_⟩
        exact le_trans (sweepTopK_rem_le minUnit hpos cs _ _ true hcs) h1
    · simp only [if_neg hfit] at hadd ⊢
      by_cases hbr : rem < minUnit
      · simp only [hbr, if_pos] at hadd
        cases hadd
      · simp only [hbr, if_neg] at hadd ⊢
        exact ih alloc rem hcs hadd

/-- Top-K repeat pass, the `while added and remaining >= min_unit` loop of
lines 296-310.  The hypotheses record that `minUnit` is positive and is a
lower bound of the `min_invest` of every sweep candidate; they are exactly
what makes the source loop terminate (with a candidate of nonpositive
`min_invest` the Python loop would never return, and `greedy_fill_full`
models that by returning `none` before reaching this loop). -/
def topkLoop (topk : List Cand) (minUnit : ℚ) (hpos : 0 < minUnit)
    (hmin : ∀ x ∈ topk, minUnit ≤ x.min_invest)
    (alloc : List AllocLine) (rem : ℚ) : List AllocLine × ℚ :=
  if h : minUnit ≤ rem then
    if hadd : (sweepTopK minUnit topk alloc rem false).2.2 = true then
      topkLoop topk minUnit hpos hmin (sweepTopK minUnit topk alloc rem false).1
        (sweepTopK minUnit topk alloc rem false).2.1
    else
      ((sweepTopK minUnit topk alloc rem false).1,
        (sweepTopK minUnit topk alloc rem false).2.1)
  else
    (alloc, rem)
termination_by (⌊rem / minUnit⌋).toNat
decreasing_by
  have hp := sweepTopK_progress minUnit hpos topk alloc rem hmin hadd
  exact floor_div_toNat_lt hpos h hp.2 hp.1

/-- Drain pass, the `while remaining >= min_unit` loop of lines 312-323:
keep buying one lot of the densest affordable candidate. -/
def drainLoop (cands : List Cand) (minUnit : ℚ) (hpos : 0 < minUnit)
    (hmin : ∀ x ∈ cands, minUnit ≤ x.min_invest)
    (alloc : List AllocLine) (rem : ℚ) : List AllocLine × ℚ :=
  if h : minUnit ≤ rem then
    match haff : cands.filter (fun c => c.min_invest ≤ rem) with
    | [] => (alloc, rem)
    | a :: as =>
      drainLoop cands minUnit hpos hmin (addLot alloc (pyMaxBy density a as))
        (rem - (pyMaxBy density a as).min_invest)
  else
    (alloc, rem)
termination_by (⌊rem / minUnit⌋).toNat
decreasing_by
  have hpick : pyMaxBy density a as ∈ cands.filter (fun c => c.min_invest ≤ rem) := by
    rw [haff]; exact pyMaxBy_mem density as a
  have hmem : pyMaxBy density a as ∈ cands := (List.mem_filter.mp hpick).1
  have hfit : (pyMaxBy density a as).min_invest ≤ rem := by
    have := (List.mem_filter.mp hpick).2
    exact of_decide_eq_true this
  have hlow : minUnit ≤ (pyMaxBy density a as).min_invest := hmin _ hmem
  exact floor_div_toNat_lt hpos h (by linarith) (by linarith)

/-- The greedy heuristic `greedy_fill_full` (lines 284-326).  Returns `none`
when the source would not return normally: an empty candidate list makes
`min()` at line 288 raise `ValueError`, and a nonpositive global minimum
`min_invest` would make the later loops diverge (or, with `min_invest = 0`,
the density sort raise `ZeroDivisionError`); neither arises for candidates
built by `build_candidates`. -/
def greedy_fill_full (candidates : List Cand) (budget : ℚ) :
    Option (List AllocLine × ℚ) :=
  match sortByDensityDesc candidates with
  | [] => none
  | c :: cs =>
    if hpos : 0 < minUnitOf c cs then
      let seeded := seedPass (c :: cs) [] budget
      let afterTopk := topkLoop ((c :: cs).take TOP_FILL_K) (minUnitOf c cs) hpos
        (fun x hx => minUnitOf_le c cs x (List.take_subset _ _ hx))
        seeded.1 seeded.2
      let drained := drainLoop (c :: cs) (minUnitOf c cs) hpos
        (minUnitOf_le c cs) afterTopk.1 afterTopk.2
      some (sortByCompositeDesc drained.1, drained.2)
    else
      none

/-- Python `round(x)` to an integer: round-half-to-even (banker's rounding,
the behaviour of `round` on floats, idealized over `ℚ`). -/
def roundHalfEven (x : ℚ) : ℤ :=
  if x - ⌊x⌋ < 1/2 then ⌊x⌋
  else if 1/2 < x - ⌊x⌋ then ⌊x⌋ + 1
  else if ⌊x⌋ % 2 = 0 then ⌊x⌋ else ⌊x⌋ + 1

/-- Python `round(q, 3)` as used at lines 218 and 223-226. -/
def round3 (q : ℚ) : ℚ := (roundHalfEven (q * 1000) : ℚ) / 1000

/-- Python division, which raises `ZeroDivisionError` on a zero divisor. -/
def pyDiv (a b : ℚ) : Option ℚ := if b = 0 then none else some (a / b)

/-- Input of `extract_retail_quota` (lines 149-155) with the regex work of
the external Field Normalizer already performed: `none` models falsy text
(missing field), `some none` text without a `Retail:NN%` match, and
`some (some q)` a match whose captured group parses to `q` (the capture
`\d+\.?\d*` always parses, to a nonnegative value). -/
def extract_retail_quota : Option (Option ℚ) → ℚ
  | none => 10
  | some none => 10
  | some (some q) => q

/-- Regex-resolved content of the valuation/financial text consumed by
`extract_fundamental_score` (lines 157-183): keyword presence flags and the
three ratio captures.  Outer `none` on a capture means the regex did not
match; inner `none` means it matched but `safe_float` of the capture failed
(e.g. a bare `.` for `roe`). -/
structure FundText where
  hasProfitWord : Bool
  hasLossWord : Bool
  roe : Option (Option ℚ)
  de : Option (Option ℚ)
  eps : Option (Option ℚ)
deriving Repr, DecidableEq

/-- The rule-based fundamental score of lines 157-183; `none` input models
falsy text.  Conditions `roe and roe > 10` etc. keep Python truthiness: a
`None` or `0.0` capture never fires the branch, but the matched `eps` branch
subtracts 1 whenever its capture is falsy. -/
def extract_fundamental_score : Option FundText → ℚ
  | none => 5
  | some t =>
    let s1 : ℚ := if t.hasProfitWord then 5 + 2 else 5
    let s2 := if t.hasLossWord then s1 - 2 else s1
    let s3 := match t.roe with
      | some (some r) => if r ≠ 0 ∧ 10 < r then s2 + 3/2 else s2
      | some none => s2
      | none => s2
    let s4 := match t.de with
      | some (some d) => if d ≠ 0 ∧ 1 < d then s3 - 1 else s3
      | some none => s3
      | none => s3
    let s5 := match t.eps with
      | some (some e) => if e ≠ 0 ∧ 0 < e then s4 + 1 else s4 - 1
      | some none => s4 - 1
      | none => s4
    max 1 (min s5 10)

/-- Sentiment score of lines 185-198 over the resolved keyword counts: the
input carries how many of the seven positive and six negative list words
occur in the overview text (`none` models falsy text). -/
def extract_sentiment : Option (ℕ × ℕ) → ℚ
  | none => 5
  | some (g, b) => max 1 (min (5 + (g : ℚ) * (1/2) - (b : ℚ) * (1/2)) 10)

/-- Issue-price field after the external parsing of `parse_issue_mid`
(lines 125-134): `dictP v` is a structured `{min,avg,max}` value with
`v = safe_float(avg or mid or min)` (an arbitrary rational, possibly
negative, or `none` when unparsable); `textP nums` carries the nonnegative
numeric tokens `\d+\.?\d*` found in a price-band string; `absent` is a falsy
field. -/
inductive PriceField where
  | dictP (v : Option ℚ)
  | textP (nums : List ℚ)
  | absent
deriving Repr, DecidableEq

/-- Mid-price resolution of lines 125-134: the structured value itself, or
the mean of the textual tokens, or `none`. -/
def parse_issue_mid : PriceField → Option ℚ
  | .dictP v => v
  | .textP [] => none
  | .textP (n :: ns) => some ((n :: ns).sum / ((n :: ns).length : ℚ))
  | .absent => none

/-- Market-lot text after the regexes of `parse_lot_and_min_invest`
(lines 111-123): `m1 lot minD` is a `NN shares ... ₹MM` match (`lot` from
`\d{1,6}` always parses; `minD` is `none` when `safe_float` of the `[\d,]+`
amount fails), `m2 minD` an amount-only match, `nomatch` a string matching
neither, `absent` falsy text. -/
inductive LotField where
  | absent
  | m1 (lotDigits : ℕ) (minDigits : Option ℕ)
  | m2 (minDigits : Option ℕ)
  | noMatch
deriving Repr, DecidableEq

/-- Lot/minimum-investment extraction of lines 111-123.  A zero capture is
turned into `None` by the `if lot`/`if min_inv` guards of line 119 in the
two-group branch; the amount-only branch (line 122) has no guard, so it
returns a zero amount as `0.0`, and raises `TypeError` (`float(None)`) when
its capture does not parse — modelled by `none`. -/
def parse_lot_and_min_invest : LotField → Option (Option ℕ × Option ℚ)
  | .absent => some (none, none)
  | .m1 lot minD =>
    some (if lot = 0 then none else some lot,
      match minD with
      | some n => if n = 0 then none else some (n : ℚ)
      | none => none)
  | .m2 minD =>
    match minD with
    | some n => some (none, some (n : ℚ))
    | none => none
  | .noMatch => some (none, none)

/-- Analysis record: the two keys read by the core (`status`, `score`);
`score` is `none` when the key is missing (the claims restrict attention to
numeric scores, matching `analysis.get("score", 5)` at line 202). -/
structure AnalysisRec where
  status : Option String
  score : Option ℚ
deriving Repr, DecidableEq

/-- Offering record as consumed by the core, with every free-text field
already taken through the external regex layer: retail-quota capture,
fundamental-text content, sentiment keyword counts, `safe_float` of
`gmp_investorgain`, the issue-price field, the market-lot field, the
category string and the resolved close date (`try_parse_date` result as a
day number, `none` when unparsable or absent). -/
structure IpoDoc where
  quota : Option (Option ℚ)
  fund_text : Option FundText
  overview : Option (ℕ × ℕ)
  gmp_investorgain : Option ℚ
  issue_price : PriceField
  market_lot : LotField
  category : String
  close_date : Option ℤ
deriving Repr, DecidableEq

/-- Score breakdown dict of lines 220-228 (the fixed weight vector of
lines 211-215 is a configuration constant and is omitted from the record). -/
structure Breakdown where
  base_score : ℚ
  retail_quota_pct : ℚ
  rq_score : ℚ
  fund_score : ℚ
  sentiment_score : ℚ
  gmp_strength_pct : ℚ
deriving Repr, DecidableEq

/-- Scoring engine `compute_composite_and_breakdown` (lines 200-229).  The
guard `(gmp / issue * 100) if (gmp and issue) else 0` is kept with Python
truthiness: the ratio is computed exactly when `gmp ≠ 0` and the resolved
issue price is present and nonzero; `pyDiv` records that the division can
only be reached with a nonzero divisor, so the function never returns
`none`. -/
def compute_composite_and_breakdown (ipo : IpoDoc) (analysis : AnalysisRec) :
    Option (ℚ × Breakdown) :=
  let base := analysis.score.getD 5
  let retail := extract_retail_quota ipo.quota
  let fund := extract_fundamental_score ipo.fund_text
  let sent := extract_sentiment ipo.overview
  let gmp := ipo.gmp_investorgain.getD 0
  let issue := parse_issue_mid ipo.issue_price
  let gmpStrengthO : Option ℚ :=
    if gmp ≠ 0 ∧ issue.getD 0 ≠ 0 then (pyDiv gmp (issue.getD 0)).map (· * 100)
    else some 0
  match gmpStrengthO with
  | none => none
  | some gmp_strength =>
    let rq_score := min (retail / 10) 1 * 10
    let w_base : ℚ := 3/10
    let w_rq : ℚ := 1/4
    let w_fund : ℚ := 1/5
    let w_gmp : ℚ := 3/20
    let w_sent : ℚ := 1/10
    let composite := w_base * base + w_rq * rq_score + w_fund * fund +
      w_gmp * (gmp_strength / 10) + w_sent * sent
    some (round3 (min composite 10),
      ⟨base, retail, round3 rq_score, round3 fund, round3 sent, round3 gmp_strength⟩)

/-- Candidate entity built at lines 269-280 (the raw `gmp_investorgain` and
`analysis` passthrough fields are reporting-only and omitted). -/
structure Candidate where
  ipo : String
  category : String
  composite : ℚ
  breakdown : Breakdown
  issue_mid : ℚ
  lot : Option ℕ
  min_invest : ℚ
  close_date : ℤ
deriving Repr, DecidableEq

/-- Fallback of line 263: `(lot * issue_mid) if lot else
MIN_INVEST_MAINBOARD`. -/
def lot_fallback (lot : Option ℕ) (im : ℚ) : ℚ :=
  match lot with
  | some l => (l : ℚ) * im
  | none => MIN_INVEST_MAINBOARD

/-- Minimum-investment resolution of lines 261-263: the parsed amount when
truthy, otherwise the fallback. -/
def resolve_min_invest (lot : Option ℕ) (minv : Option ℚ) (im : ℚ) : ℚ :=
  match minv with
  | some mv => if mv = 0 then lot_fallback lot im else mv
  | none => lot_fallback lot im

/-- Candidate builder `build_candidates` (lines 243-281) over the offerings
in iteration order; `scored` is the analysis dict as a lookup.  Returns
`none` when an iteration raises (only possible through
`parse_lot_and_min_invest`).  The close-date chain
`ipo.get("close_date") or fields` is pre-resolved into the single
`close_date` field. -/
def build_candidates : List (String × IpoDoc) → (String → Option AnalysisRec) → ℤ →
    Option (List Candidate)
  | [], _, _ => some []
  | (name, ipo) :: rest, scored, hold =>
    match scored name with
    | none => build_candidates rest scored hold
    | some analysis =>
      if analysis.status ≠ some "scored" ∧ analysis.score = none then
        build_candidates rest scored hold
      else
        match ipo.close_date with
        | none => build_candidates rest scored hold
        | some cd =>
          if hold < cd then build_candidates rest scored hold
          else
            match parse_issue_mid ipo.issue_price with
            | none => build_candidates rest scored hold
            | some im =>
              if im = 0 then build_candidates rest scored hold
              else
                match parse_lot_and_min_invest ipo.market_lot with
                | none => none
                | some (lot, minv) =>
                  match compute_composite_and_breakdown ipo analysis with
                  | none => none
                  | some (comp, bd) =>
                    if comp < 5 then build_candidates rest scored hold
                    else
                      (build_candidates rest scored hold).map
                        (fun cs => ⟨name, ipo.category, comp, bd, im, lot,
                          resolve_min_invest lot minv im, cd⟩ :: cs)

/-- Integer-variable cap of `allocate_balanced` (lines 339-340):
`min(DEFAULT_MAX_LOTS_PER_IPO, int(max(1, budget // min_invest)))`. -/
def lot_cap (budget : ℚ) (min_invest : ℚ) : ℤ :=
  min DEFAULT_MAX_LOTS_PER_IPO (max 1 ⌊budget / min_invest⌋)

/-- Per-candidate `LpVariable` bounds as created at lines 337-341:
`(name, lowBound, upBound)` with `lowBound=0` and `upBound` the cap. -/
def var_bounds (cands : List Cand) (budget : ℚ) : List (String × ℤ × ℤ) :=
  cands.map (fun c => (c.ipo, 0, lot_cap budget c.min_invest))

/-- Budget constraint handed to the solver at line 355. -/
def solverFeasible (sol : String → ℕ) (cands : List Cand) (budget : ℚ) : Prop :=
  (cands.map (fun c => c.min_invest * (sol c.ipo : ℚ))).sum ≤ budget

/-- Line emitted by `allocate_balanced` for one candidate (lines 363-366):
`v = int(pulp.value(...) or 0)` kept only when positive, with
`invested = v * min_invest`. -/
def balancedLine (sol : String → ℕ) (c : Cand) : Option AllocLine :=
  if 0 < sol c.ipo then
    some ⟨c.ipo, sol c.ipo, c.min_invest, (sol c.ipo : ℚ) * c.min_invest, c.composite⟩
  else none

/-- Post-processing of `allocate_balanced` (lines 360-369) given the
solver's integral assignment `sol` (the external ILP capability; the spec
models it as a collaborator returning an optional solution): emit one line
per candidate with a positive lot count and return the remaining budget. -/
def allocate_balanced (sol : String → ℕ) (cands : List Cand) (budget : ℚ) :
    List AllocLine × ℚ :=
  let allocation := cands.filterMap (balancedLine sol)
  (allocation, budget - sumInvested allocation)

/-- Selection policy of `main` (lines 471-480): `opt` is the outcome of
`allocate_balanced` (`none` when the optimizer capability is unavailable);
on under-utilization beyond 1% of the budget the greedy heuristic is also
run and wins only with strictly more invested. -/
def main_select (cands : List Cand) (budget : ℚ)
    (opt : Option (List AllocLine × ℚ)) : Option (List AllocLine × ℚ) :=
  match opt with
  | none => greedy_fill_full cands budget
  | some (alloc, remaining) =>
    if (1/100) * budget < remaining then
      match greedy_fill_full cands budget with
      | none => none
      | some (ga, gr) =>
        if budget - remaining < budget - gr then some (ga, gr)
        else some (alloc, remaining)
    else
      some (alloc, remaining)

theorem sumInvested_nil : sumInvested [] = 0 := rfl

theorem sumInvested_cons (a : AllocLine) (l : List AllocLine) :
    sumInvested (a :: l) = a.invested + sumInvested l := by
  simp [sumInvested]

theorem sumInvested_append (l1 l2 : List AllocLine) :
    sumInvested (l1 ++ l2) = sumInvested l1 + sumInvested l2 := by
  simp [sumInvested]

theorem sumInvested_perm {l1 l2 : List AllocLine} (h : l1.Perm l2) :
    sumInvested l1 = sumInvested l2 :=
  List.Perm.sum_eq (List.Perm.map AllocLine.invested h)

theorem sumInvested_addLot (c : Cand) :
    ∀ alloc : List AllocLine,
      sumInvested (addLot alloc c) = sumInvested alloc + c.min_invest := by
  intro alloc
  induction alloc with
  | nil => simp [addLot, sumInvested, mkLine]
  | cons a rest ih =>
    rw [addLot]
    by_cases h : a.ipo = c.ipo
    · rw [if_pos h, sumInvested_cons, sumInvested_cons]
      simp only
      ring
    · rw [if_neg h, sumInvested_cons, sumInvested_cons, ih]
      ring

theorem seedPass_sum : ∀ (cs : List Cand) (alloc : List AllocLine) (rem : ℚ),
    sumInvested (seedPass cs alloc rem).1 + (seedPass cs alloc rem).2 =
      sumInvested alloc + rem := by
  intro cs
  induction cs with
  | nil => intro alloc rem; simp [seedPass]
  | cons c cs ih =>
    intro alloc rem
    rw [seedPass]
    by_cases h : c.min_invest ≤ rem
    · rw [if_pos h, ih, sumInvested_append]
      simp only [sumInvested, List.map_cons, List.map_nil, List.sum_cons,
        List.sum_nil, mkLine]
      ring
    · rw [if_neg h]
      exact ih alloc rem

theorem seedPass_rem_nonneg : ∀ (cs : List Cand) (alloc : List AllocLine) (rem : ℚ),
    0 ≤ rem → 0 ≤ (seedPass cs alloc rem).2 := by
  intro cs
  induction cs with
  | nil => intro alloc rem h; exact h
  | cons c cs ih =>
    intro alloc rem hrem
    rw [seedPass]
    by_cases h : c.min_invest ≤ rem
    · rw [if_pos h]; exact ih _ _ (by linarith)
    · rw [if_neg h]; exact ih _ _ hrem

theorem sweepTopK_sum (minUnit : ℚ) :
    ∀ (cs : List Cand) (alloc : List AllocLine) (rem : ℚ) (added : Bool),
      sumInvested (sweepTopK minUnit cs alloc rem added).1 +
        (sweepTopK minUnit cs alloc rem added).2.1 = sumInvested alloc + rem := by
  intro cs
  induction cs with
  | nil => intro alloc rem added; simp [sweepTopK]
  | cons c cs ih =>
    intro alloc rem added
    rw [sweepTopK]
    by_cases hfit : c.min_invest ≤ rem
    · simp only [if_pos hfit]
      by_cases hbr : rem - c.min_invest < minUnit
      · rw [if_pos hbr]
        rw [sumInvested_addLot]
        ring
      · rw [if_neg hbr]
        rw [ih, sumInvested_addLot]
        ring
    · simp only [if_neg hfit]
      by_cases hbr : rem < minUnit
      · simp [hbr]
      · rw [if_neg hbr]
        exact ih alloc rem added

theorem topkLoop_sum (topk : List Cand) (minUnit : ℚ) (hpos : 0 < minUnit)
    (hmin : ∀ x ∈ topk, minUnit ≤ x.min_invest) :
    ∀ (alloc : List AllocLine) (rem : ℚ),
      sumInvested (topkLoop topk minUnit hpos hmin alloc rem).1 +
        (topkLoop topk minUnit hpos hmin alloc rem).2 = sumInvested alloc + rem := by
  intro alloc rem
  induction alloc, rem using topkLoop.induct topk minUnit hpos hmin with
  | case1 alloc rem h hadd ih =>
    rw [topkLoop, dif_pos h, dif_pos hadd]
    rw [ih]
    exact sweepTopK_sum minUnit topk alloc rem false
  | case2 alloc rem h hadd =>
    rw [topkLoop, dif_pos h, dif_neg hadd]
    exact sweepTopK_sum minUnit topk alloc rem false
  | case3 alloc rem h =>
    rw [topkLoop, dif_neg h]

theorem topkLoop_rem_nonneg (topk : List Cand) (minUnit : ℚ) (hpos : 0 < minUnit)
    (hmin : ∀ x ∈ topk, minUnit ≤ x.min_invest) :
    ∀ (alloc : List AllocLine) (rem : ℚ),
      0 ≤ rem → 0 ≤ (topkLoop topk minUnit hpos hmin alloc rem).2 := by
  intro alloc rem
  induction alloc, rem using topkLoop.induct topk minUnit hpos hmin with
  | case1 alloc rem h hadd ih =>
    intro _
    rw [topkLoop, dif_pos h, dif_pos hadd]
    exact ih ((sweepTopK_progress minUnit hpos topk alloc rem hmin hadd).1)
  | case2 alloc rem h hadd =>
    intro hrem
    rw [topkLoop, dif_pos h, dif_neg hadd]
    exact sweepTopK_rem_nonneg minUnit topk alloc rem false hrem
  | case3 alloc rem h =>
    intro hrem
    rw [topkLoop, dif_neg h]
    exact hrem

theorem drainLoop_sum (cands : List Cand) (minUnit : ℚ) (hpos : 0 < minUnit)
    (hmin : ∀ x ∈ cands, minUnit ≤ x.min_invest) :
    ∀ (alloc : List AllocLine) (rem : ℚ),
      sumInvested (drainLoop cands minUnit hpos hmin alloc rem).1 +
        (drainLoop cands minUnit hpos hmin alloc rem).2 = sumInvested alloc + rem := by
  intro alloc rem
  induction alloc, rem using drainLoop.induct cands minUnit hpos hmin with
  | case1 alloc rem h haff =>
    rw [drainLoop, dif_pos h]
    split
    · rfl
    · rename_i a as heq
      rw [haff] at heq
      cases heq
  | case2 alloc rem h a as haff ih =>
    rw [drainLoop, dif_pos h]
    split
    · rename_i heq
      exact absurd (haff.symm.trans heq) (List.cons_ne_nil a as)
    · rename_i a' as' heq
      rw [haff] at heq
      cases heq
      rw [ih, sumInvested_addLot]
      ring
  | case3 alloc rem h =>
    rw [drainLoop]
    rw [dif_neg h]

theorem drainLoop_rem_nonneg (cands : List Cand) (minUnit : ℚ) (hpos : 0 < minUnit)
    (hmin : ∀ x ∈ cands, minUnit ≤ x.min_invest) :
    ∀ (alloc : List AllocLine) (rem : ℚ),
      0 ≤ rem → 0 ≤ (drainLoop cands minUnit hpos hmin alloc rem).2 := by
  intro alloc rem
  induction alloc, rem using drainLoop.induct cands minUnit hpos hmin with
  | case1 alloc rem h haff =>
    intro hrem
    rw [drainLoop, dif_pos h]
    split
    · exact hrem
    · rename_i a as heq
      rw [haff] at heq
      cases heq
  | case2 alloc rem h a as haff ih =>
    intro hrem
    rw [drainLoop, dif_pos h]
    split
    · rename_i heq
      exact absurd (haff.symm.trans heq) (List.cons_ne_nil a as)
    · rename_i a' as' heq
      rw [haff] at heq
      cases heq
      have hpick : pyMaxBy density a as ∈ cands.filter (fun c => c.min_invest ≤ rem) := by
        rw [haff]; exact pyMaxBy_mem density as a
      have hfit : (pyMaxBy density a as).min_invest ≤ rem :=
        of_decide_eq_true (List.mem_filter.mp hpick).2
      exact ih (by linarith)
  | case3 alloc rem h =>
    intro hrem
    rw [drainLoop]
    rw [dif_neg h]
    exact hrem

/-- The drain loop only stops with a remainder strictly below the global
minimum unit: while `remaining >= min_unit` holds, the candidate attaining
the minimum is affordable, so the `if not affordable: break` at line 314
never fires. -/
theorem drainLoop_rem_lt (cands : List Cand) (minUnit : ℚ) (hpos : 0 < minUnit)
    (hmin : ∀ x ∈ cands, minUnit ≤ x.min_invest)
    (hatt : ∃ x ∈ cands, x.min_invest = minUnit) :
    ∀ (alloc : List AllocLine) (rem : ℚ),
      (drainLoop cands minUnit hpos hmin alloc rem).2 < minUnit := by
  intro alloc rem
  induction alloc, rem using drainLoop.induct cands minUnit hpos hmin with
  | case1 alloc rem h haff =>
    obtain ⟨x, hx, hxm⟩ := hatt
    have hxin : x ∈ cands.filter (fun c => c.min_invest ≤ rem) :=
      List.mem_filter.mpr ⟨hx, decide_eq_true (by rw [hxm]; exact h)⟩
    rw [haff] at hxin
    cases hxin
  | case2 alloc rem h a as haff ih =>
    rw [drainLoop, dif_pos h]
    split
    · rename_i heq
      exact absurd (haff.symm.trans heq) (List.cons_ne_nil a as)
    · rename_i a' as' heq
      rw [haff] at heq
      cases heq
      exact ih
  | case3 alloc rem h =>
    rw [drainLoop]
    rw [dif_neg h]
    exact lt_of_not_le h

/-- Invariant over allocation lines: each line satisfies
`invested = lots × min_invest` and inherits `(ipo, min_invest)` from some
candidate of the list. -/
def LinesOk (cands : List Cand) (alloc : List AllocLine) : Prop :=
  ∀ l ∈ alloc, l.invested = (l.lots : ℚ) * l.min_invest ∧
    ∃ c ∈ cands, c.ipo = l.ipo ∧ c.min_invest = l.min_invest

theorem linesOk_nil (cands : List Cand) : LinesOk cands [] := by
  intro l hl; cases hl

theorem linesOk_append {cands : List Cand} {l1 l2 : List AllocLine}
    (h1 : LinesOk cands l1) (h2 : LinesOk cands l2) : LinesOk cands (l1 ++ l2) := by
  intro l hl
  rcases List.mem_append.mp hl with h | h
  · exact h1 l h
  · exact h2 l h

theorem linesOk_mkLine {cands : List Cand} {c : Cand} (hc : c ∈ cands) :
    LinesOk cands [mkLine c] := by
  intro l hl
  rcases List.mem_singleton.mp hl with rfl
  exact ⟨by simp [mkLine], c, hc, rfl, rfl⟩

theorem linesOk_addLot {cands : List Cand}
    (hnd : (cands.map Cand.ipo).Nodup) {c : Cand} (hc : c ∈ cands) :
    ∀ {alloc : List AllocLine}, LinesOk cands alloc → LinesOk cands (addLot alloc c) := by
  intro alloc
  induction alloc with
  | nil => intro _; exact linesOk_mkLine hc
  | cons a rest ih =>
    intro h
    have ha := h a (List.mem_cons_self a rest)
    have hrest : LinesOk cands rest := fun l hl => h l (List.mem_cons_of_mem a hl)
    rw [addLot]
    by_cases hipo : a.ipo = c.ipo
    · rw [if_pos hipo]
      intro l hl
      rcases List.mem_cons.mp hl with rfl | hl
      · obtain ⟨hinv, c', hc', hc'i, hc'm⟩ := ha
        have hcc : c' = c :=
          List.inj_on_of_nodup_map hnd hc' hc (by rw [hc'i, hipo])
        have hmm : c.min_invest = a.min_invest := by rw [← hcc]; exact hc'm
        refine ⟨?_, c, hc, by simpa using hipo.symm, by simpa using hmm⟩
        simp only
        rw [hinv, hmm]
        push_cast
        ring
      · exact hrest l hl
    · rw [if_neg hipo]
      intro l hl
      rcases List.mem_cons.mp hl with rfl | hl
      · exact ha
      · exact ih hrest l hl

theorem seedPass_linesOk {cands : List Cand} :
    ∀ (cs : List Cand) (alloc : List AllocLine) (rem : ℚ),
      (∀ x ∈ cs, x ∈ cands) → LinesOk cands alloc →
      LinesOk cands (seedPass cs alloc rem).1 := by
  intro cs
  induction cs with
  | nil => intro alloc rem _ h; exact h
  | cons c cs ih =>
    intro alloc rem hsub h
    have hc : c ∈ cands := hsub c (List.mem_cons_self c cs)
    have hsub' : ∀ x ∈ cs, x ∈ cands := fun x hx => hsub x (List.mem_cons_of_mem c hx)
    rw [seedPass]
    by_cases hfit : c.min_invest ≤ rem
    · rw [if_pos hfit]
      exact ih _ _ hsub' (linesOk_append h (linesOk_mkLine hc))
    · rw [if_neg hfit]
      exact ih _ _ hsub' h

theorem sweepTopK_linesOk {cands : List Cand} (minUnit : ℚ)
    (hnd : (cands.map Cand.ipo).Nodup) :
    ∀ (cs : List Cand) (alloc : List AllocLine) (rem : ℚ) (added : Bool),
      (∀ x ∈ cs, x ∈ cands) → LinesOk cands alloc →
      LinesOk cands (sweepTopK minUnit cs alloc rem added).1 := by
  intro cs
  induction cs with
  | nil => intro alloc rem added _ h; exact h
  | cons c cs ih =>
    intro alloc rem added hsub h
    have hc : c ∈ cands := hsub c (List.mem_cons_self c cs)
    have hsub' : ∀ x ∈ cs, x ∈ cands := fun x hx => hsub x (List.mem_cons_of_mem c hx)
    rw [sweepTopK]
    by_cases hfit : c.min_invest ≤ rem
    · simp only [if_pos hfit]
      by_cases hbr : rem - c.min_invest < minUnit
      · rw [if_pos hbr]
        exact linesOk_addLot hnd hc h
      · rw [if_neg hbr]
        exact ih _ _ _ hsub' (linesOk_addLot hnd hc h)
    · simp only [if_neg hfit]
      by_cases hbr : rem < minUnit
      · simp only [if_pos hbr]
        exact h
      · rw [if_neg hbr]
        exact ih _ _ _ hsub' h

theorem topkLoop_linesOk {cands : List Cand} (topk : List Cand) (minUnit : ℚ)
    (hpos : 0 < minUnit) (hmin : ∀ x ∈ topk, minUnit ≤ x.min_invest)
    (hnd : (cands.map Cand.ipo).Nodup) (hsub : ∀ x ∈ topk, x ∈ cands) :
    ∀ (alloc : List AllocLine) (rem : ℚ), LinesOk cands alloc →
      LinesOk cands (topkLoop topk minUnit hpos hmin alloc rem).1 := by
  intro alloc rem
  induction alloc, rem using topkLoop.induct topk minUnit hpos hmin with
  | case1 alloc rem h hadd ih =>
    intro hok
    rw [topkLoop, dif_pos h, dif_pos hadd]
    exact ih (sweepTopK_linesOk minUnit hnd topk alloc rem false hsub hok)
  | case2 alloc rem h hadd =>
    intro hok
    rw [topkLoop, dif_pos h, dif_neg hadd]
    exact sweepTopK_linesOk minUnit hnd topk alloc rem false hsub hok
  | case3 alloc rem h =>
    intro hok
    rw [topkLoop, dif_neg h]
    exact hok

theorem drainLoop_linesOk (cands : List Cand) (minUnit : ℚ) (hpos : 0 < minUnit)
    (hmin : ∀ x ∈ cands, minUnit ≤ x.min_invest)
    (hnd : (cands.map Cand.ipo).Nodup) :
    ∀ (alloc : List AllocLine) (rem : ℚ), LinesOk cands alloc →
      LinesOk cands (drainLoop cands minUnit hpos hmin alloc rem).1 := by
  intro alloc rem
  induction alloc, rem using drainLoop.induct cands minUnit hpos hmin with
  | case1 alloc rem h haff =>
    intro hok
    rw [drainLoop, dif_pos h]
    split
    · exact hok
    · rename_i a as heq
      rw [haff] at heq
      cases heq
  | case2 alloc rem h a as haff ih =>
    intro hok
    rw [drainLoop, dif_pos h]
    split
    · rename_i heq
      exact absurd (haff.symm.trans heq) (List.cons_ne_nil a as)
    · rename_i a' as' heq
      rw [haff] at heq
      cases heq
      have hpick : pyMaxBy density a as ∈ cands.filter (fun c => c.min_invest ≤ rem) := by
        rw [haff]; exact pyMaxBy_mem density as a
      exact ih (linesOk_addLot hnd (List.mem_filter.mp hpick).1 hok)
  | case3 alloc rem h =>
    intro hok
    rw [drainLoop]
    rw [dif_neg h]
    exact hok

theorem sortByDensityDesc_perm (cs : List Cand) : (sortByDensityDesc cs).Perm cs :=
  List.perm_insertionSort _ cs

theorem sortByCompositeDesc_perm (ls : List AllocLine) : (sortByCompositeDesc ls).Perm ls :=
  List.perm_insertionSort _ ls

/-- Combined functional specification of `greedy_fill_full` on a nonempty
candidate list with positive minimum units: it returns, the invested total
plus leftover is the budget, the leftover is nonnegative and strictly below
every candidate's `min_invest`, and (for distinct offering names) every line
satisfies the `invested = lots × min_invest` identity. -/
theorem greedy_fill_full_spec (cands : List Cand) (budget : ℚ)
    (hne : cands ≠ []) (hm : ∀ c ∈ cands, 0 < c.min_invest) :
    ∃ alloc rem, greedy_fill_full cands budget = some (alloc, rem) ∧
      sumInvested alloc + rem = budget ∧
      (0 ≤ budget → 0 ≤ rem) ∧
      (∀ x ∈ cands, rem < x.min_invest) ∧
      ((cands.map Cand.ipo).Nodup →
        ∀ l ∈ alloc, l.invested = (l.lots : ℚ) * l.min_invest) := by
  have hperm0 : (sortByDensityDesc cands).Perm cands := sortByDensityDesc_perm cands
  cases hs : sortByDensityDesc cands with
  | nil =>
    rw [hs] at hperm0
    exact absurd (hperm0.symm.eq_nil) hne
  | cons c cs =>
    rw [hs] at hperm0
    have hmemiff : ∀ x : Cand, x ∈ c :: cs ↔ x ∈ cands := fun x => hperm0.mem_iff
    have hpos : 0 < minUnitOf c cs := by
      obtain ⟨x, hx, hxm⟩ := minUnitOf_attained c cs
      rw [← hxm]
      exact hm x ((hmemiff x).mp hx)
    simp only [greedy_fill_full, hs, dif_pos hpos]
    refine ⟨_, _, rfl, ?_, ?_, ?_, ?_⟩
    · rw [sumInvested_perm (sortByCompositeDesc_perm _), drainLoop_sum,
        topkLoop_sum, seedPass_sum]
      simp [sumInvested]
    · intro hb
      exact drainLoop_rem_nonneg _ _ _ _ _ _
        (topkLoop_rem_nonneg _ _ _ _ _ _ (seedPass_rem_nonneg _ _ _ hb))
    · intro x hx
      have hlt := drainLoop_rem_lt (c :: cs) (minUnitOf c cs) hpos
        (minUnitOf_le c cs) (minUnitOf_attained c cs)
        (topkLoop ((c :: cs).take TOP_FILL_K) (minUnitOf c cs) hpos
          (fun x hx => minUnitOf_le c cs x (List.take_subset _ _ hx))
          (seedPass (c :: cs) [] budget).1 (seedPass (c :: cs) [] budget).2).1
        (topkLoop ((c :: cs).take TOP_FILL_K) (minUnitOf c cs) hpos
          (fun x hx => minUnitOf_le c cs x (List.take_subset _ _ hx))
          (seedPass (c :: cs) [] budget).1 (seedPass (c :: cs) [] budget).2).2
      exact lt_of_lt_of_le hlt (minUnitOf_le c cs x ((hmemiff x).mpr hx))
    · intro hnd l hl
      have hnd' : ((c :: cs).map Cand.ipo).Nodup :=
        (List.Perm.nodup_iff (hperm0.map Cand.ipo)).mpr hnd
      have hok : LinesOk (c :: cs)
          (drainLoop (c :: cs) (minUnitOf c cs) hpos (minUnitOf_le c cs)
            (topkLoop ((c :: cs).take TOP_FILL_K) (minUnitOf c cs) hpos
              (fun x hx => minUnitOf_le c cs x (List.take_subset _ _ hx))
              (seedPass (c :: cs) [] budget).1 (seedPass (c :: cs) [] budget).2).1
            (topkLoop ((c :: cs).take TOP_FILL_K) (minUnitOf c cs) hpos
              (fun x hx => minUnitOf_le c cs x (List.take_subset _ _ hx))
              (seedPass (c :: cs) [] budget).1 (seedPass (c :: cs) [] budget).2).2).1 := by
        apply drainLoop_linesOk _ _ _ _ hnd'
        apply topkLoop_linesOk _ _ _ _ hnd' (fun x hx => List.take_subset _ _ hx)
        exact seedPass_linesOk _ _ _ (fun x hx => hx) (linesOk_nil _)
      have hl' := (sortByCompositeDesc_perm _).mem_iff.mp hl
      exact (hok l hl').1

theorem topkLoop_of_lt {topk : List Cand} {minUnit : ℚ} {hpos : 0 < minUnit}
    {hmin : ∀ x ∈ topk, minUnit ≤ x.min_invest} {alloc : List AllocLine} {rem : ℚ}
    (h : rem < minUnit) : topkLoop topk minUnit hpos hmin alloc rem = (alloc, rem) := by
  rw [topkLoop]
  rw [dif_neg (not_le.mpr h)]

theorem drainLoop_of_lt {cands : List Cand} {minUnit : ℚ} {hpos : 0 < minUnit}
    {hmin : ∀ x ∈ cands, minUnit ≤ x.min_invest} {alloc : List AllocLine} {rem : ℚ}
    (h : rem < minUnit) : drainLoop cands minUnit hpos hmin alloc rem = (alloc, rem) := by
  rw [drainLoop]
  rw [dif_neg (not_le.mpr h)]

/-- Full concrete run of the greedy allocator on one candidate with a budget
of exactly one lot: the seed pass buys the lot and the later passes are
entered with zero remaining budget. -/
theorem greedy_single_eval (c : Cand) (hpos : 0 < c.min_invest) :
    greedy_fill_full [c] c.min_invest = some ([mkLine c], 0) := by
  have hs : sortByDensityDesc [c] = [c] := rfl
  simp only [greedy_fill_full, hs]
  rw [dif_pos (show 0 < minUnitOf c [] from hpos)]
  have hseed : seedPass [c] [] c.min_invest = ([mkLine c], 0) := by
    rw [seedPass, if_pos (le_refl c.min_invest), sub_self]
    rfl
  simp only [hseed]
  rw [topkLoop_of_lt (show (0 : ℚ) < minUnitOf c [] from hpos)]
  rw [drainLoop_of_lt (show (0 : ℚ) < minUnitOf c [] from hpos)]
  rfl

/-- Full concrete run of the greedy allocator on one candidate with a budget
strictly below its unit: nothing is ever affordable. -/
theorem greedy_single_small_eval (c : Cand) (hpos : 0 < c.min_invest)
    (b : ℚ) (hlt : b < c.min_invest) :
    greedy_fill_full [c] b = some ([], b) := by
  have hs : sortByDensityDesc [c] = [c] := rfl
  simp only [greedy_fill_full, hs]
  rw [dif_pos (show 0 < minUnitOf c [] from hpos)]
  have hseed : seedPass [c] [] b = ([], b) := by
    rw [seedPass, if_neg (not_le.mpr hlt)]
    rfl
  simp only [hseed]
  rw [topkLoop_of_lt (show b < minUnitOf c [] from hlt)]
  rw [drainLoop_of_lt (show b < minUnitOf c [] from hlt)]
  rfl

/-- Each line of `allocate_balanced` satisfies the invested identity by
construction. -/
theorem balancedLine_invariant {sol : String → ℕ} {c : Cand} {l : AllocLine}
    (h : balancedLine sol c = some l) :
    l.invested = (l.lots : ℚ) * l.min_invest := by
  rw [balancedLine] at h
  by_cases hc : 0 < sol c.ipo
  · rw [if_pos hc] at h
    cases h
    rfl
  · rw [if_neg hc] at h
    cases h

/-- The invested total of the balanced allocation equals the left-hand side
of the budget constraint handed to the solver (skipped candidates have a
zero lot count and contribute zero). -/
theorem balanced_sum_eq (sol : String → ℕ) :
    ∀ cands : List Cand,
      sumInvested (cands.filterMap (balancedLine sol)) =
        (cands.map (fun c => c.min_invest * (sol c.ipo : ℚ))).sum := by
  intro cands
  induction cands with
  | nil => rfl
  | cons c cs ih =>
    rw [List.filterMap_cons, List.map_cons, List.sum_cons]
    by_cases hc : 0 < sol c.ipo
    · rw [balancedLine, if_pos hc]
      rw [sumInvested_cons, ih]
      simp only
      ring
    · rw [balancedLine, if_neg hc]
      rw [ih]
      have : sol c.ipo = 0 := Nat.eq_zero_of_not_pos hc
      rw [this]
      push_cast
      ring

/-- Claim C1 (status: code_bug).  On the empty candidate list
`allocate_balanced` does return the empty allocation with the whole budget
left over, but `greedy_fill_full` does not return at all: `min()` over the
empty `min_invest` generator at line 288 raises `ValueError` (modelled by
`none`), contradicting the spec's "neither strategy raises for an empty
candidate list". -/
theorem empty_candidates_greedy_raises_balanced_returns :
    ∀ (budget : ℚ) (sol : String → ℕ),
      greedy_fill_full [] budget = none ∧
        allocate_balanced sol [] budget = ([], budget) := by
  intro budget sol
  constructor
  · rfl
  · simp [allocate_balanced, sumInvested]

/-- Claim C4 (status: confirmed, over candidate lists satisfying the data
model's invariants: distinct offering identifiers, positive minimum units,
nonnegative budget, and a solver answer satisfying the budget constraint it
was given): every line returned by either strategy has
`invested = lots × min_invest` exactly, and the invested totals stay within
the budget. -/
theorem allocation_lines_invariant (cands : List Cand) (budget : ℚ)
    (hb : 0 ≤ budget) (hnd : (cands.map Cand.ipo).Nodup)
    (hm : ∀ c ∈ cands, 0 < c.min_invest) (sol : String → ℕ)
    (hsol : solverFeasible sol cands budget) :
    (∀ alloc rem, greedy_fill_full cands budget = some (alloc, rem) →
      (∀ l ∈ alloc, l.invested = (l.lots : ℚ) * l.min_invest) ∧
        sumInvested alloc ≤ budget) ∧
    ((∀ l ∈ (allocate_balanced sol cands budget).1,
        l.invested = (l.lots : ℚ) * l.min_invest) ∧
      sumInvested (allocate_balanced sol cands budget).1 ≤ budget) := by
  constructor
  · intro alloc rem heq
    by_cases hne : cands = []
    · subst hne
      exact absurd heq (by simp [greedy_fill_full, sortByDensityDesc])
    · obtain ⟨a, r, h1, h2, h3, _, h5⟩ := greedy_fill_full_spec cands budget hne hm
      rw [heq] at h1
      obtain ⟨rfl, rfl⟩ : a = alloc ∧ r = rem := by
        have h0 := Option.some.inj h1
        exact ⟨(congrArg Prod.fst h0).symm, (congrArg Prod.snd h0).symm⟩
      refine ⟨h5 hnd, ?_⟩
      have := h3 hb
      linarith
  · constructor
    · intro l hl
      obtain ⟨c, _, hc⟩ := List.mem_filterMap.mp hl
      exact balancedLine_invariant hc
    · show sumInvested (cands.filterMap (balancedLine sol)) ≤ budget
      rw [balanced_sum_eq]
      exact hsol

theorem allocation_lines_invariant_witness :
    ((∀ l ∈ [(⟨"A", 1, 10, 10, 8⟩ : AllocLine)],
        l.invested = (l.lots : ℚ) * l.min_invest) ∧
      sumInvested [(⟨"A", 1, 10, 10, 8⟩ : AllocLine)] ≤ 10) ∧
    ((∀ l ∈ (allocate_balanced (fun _ => 1) [⟨"A", 8, 10⟩] 10).1,
        l.invested = (l.lots : ℚ) * l.min_invest) ∧
      sumInvested (allocate_balanced (fun _ => 1) [⟨"A", 8, 10⟩] 10).1 ≤ 10) := by
  have h := allocation_lines_invariant [⟨"A", 8, 10⟩] 10 (by norm_num)
    (by decide) (by intro c hc; rcases List.mem_singleton.mp hc with rfl; norm_num)
    (fun _ => 1) (by show ([((10 : ℚ) * ((1 : ℕ) : ℚ))]).sum ≤ 10; norm_num)
  have heval : greedy_fill_full [⟨"A", 8, 10⟩] 10 = some ([⟨"A", 1, 10, 10, 8⟩], 0) :=
    greedy_single_eval ⟨"A", 8, 10⟩ (by norm_num)
  exact ⟨h.1 _ _ heval, h.2⟩

/-- Claim C10 (status: confirmed): for a nonempty candidate list with
positive minimum units the greedy heuristic returns, and its leftover is
strictly below every candidate's `min_invest` (hence below their minimum):
the drain pass cannot stop while any candidate is still affordable. -/
theorem greedy_leftover_lt_min_unit (cands : List Cand) (budget : ℚ)
    (hne : cands ≠ []) (hm : ∀ c ∈ cands, 0 < c.min_invest) :
    ∃ alloc rem, greedy_fill_full cands budget = some (alloc, rem) ∧
      ∀ x ∈ cands, rem < x.min_invest := by
  obtain ⟨a, r, h1, _, _, h4, _⟩ := greedy_fill_full_spec cands budget hne hm
  exact ⟨a, r, h1, h4⟩

theorem greedy_leftover_lt_min_unit_witness :
    ∃ alloc rem, greedy_fill_full [(⟨"A", 8, 10⟩ : Cand)] 3 = some (alloc, rem) ∧
      ∀ x ∈ [(⟨"A", 8, 10⟩ : Cand)], rem < x.min_invest :=
  greedy_leftover_lt_min_unit [⟨"A", 8, 10⟩] 3 (by decide)
    (by intro c hc; rcases List.mem_singleton.mp hc with rfl; norm_num)

/-- Claim C7 (status: confirmed): on A `{composite=8, min_invest=15000}` and
B `{composite=6, min_invest=10000}` with budget 25000, the density sort
considers B first, the seed pass buys exactly one lot of each leaving zero,
and the returned allocation (re-sorted by composite) is
`[{A: 1 lot, 15000}, {B: 1 lot, 10000}]` with leftover 0. -/
theorem greedy_two_candidate_scenario :
    sortByDensityDesc [⟨"A", 8, 15000⟩, ⟨"B", 6, 10000⟩] =
      [⟨"B", 6, 10000⟩, ⟨"A", 8, 15000⟩] ∧
    seedPass [⟨"B", 6, 10000⟩, ⟨"A", 8, 15000⟩] [] 25000 =
      ([⟨"B", 1, 10000, 10000, 6⟩, ⟨"A", 1, 15000, 15000, 8⟩], 0) ∧
    greedy_fill_full [⟨"A", 8, 15000⟩, ⟨"B", 6, 10000⟩] 25000 =
      some ([⟨"A", 1, 15000, 15000, 8⟩, ⟨"B", 1, 10000, 10000, 6⟩], 0) := by
  have hs : sortByDensityDesc [⟨"A", 8, 15000⟩, ⟨"B", 6, 10000⟩] =
      [⟨"B", 6, 10000⟩, ⟨"A", 8, 15000⟩] := by
    norm_num [sortByDensityDesc, List.insertionSort, List.orderedInsert, density]
  have hseed : seedPass [⟨"B", 6, 10000⟩, ⟨"A", 8, 15000⟩] [] 25000 =
      ([⟨"B", 1, 10000, 10000, 6⟩, ⟨"A", 1, 15000, 15000, 8⟩], 0) := by
    norm_num [seedPass, mkLine]
  have hmu : (0 : ℚ) < minUnitOf ⟨"B", 6, 10000⟩ [⟨"A", 8, 15000⟩] := by
    norm_num [minUnitOf, min_def]
  refine ⟨hs, hseed, ?_⟩
  simp only [greedy_fill_full, hs]
  rw [dif_pos hmu]
  simp only [hseed]
  rw [topkLoop_of_lt hmu]
  rw [drainLoop_of_lt hmu]
  norm_num [sortByCompositeDesc, List.insertionSort, List.orderedInsert]

/-- Claim C8 (status: confirmed): the selection policy of `main` uses the
greedy result when the optimizer yields none; keeps the optimizer result
unchanged when its leftover is within 1% of the budget; and otherwise keeps
whichever result invested strictly more, the optimizer's on ties. -/
theorem main_select_policy (cands : List Cand) (budget : ℚ) :
    (main_select cands budget none = greedy_fill_full cands budget) ∧
    (∀ alloc rem, rem ≤ (1/100) * budget →
      main_select cands budget (some (alloc, rem)) = some (alloc, rem)) ∧
    (∀ alloc rem ga gr, (1/100) * budget < rem →
      greedy_fill_full cands budget = some (ga, gr) →
      ((budget - rem < budget - gr →
          main_select cands budget (some (alloc, rem)) = some (ga, gr)) ∧
        (budget - gr ≤ budget - rem →
          main_select cands budget (some (alloc, rem)) = some (alloc, rem)))) := by
  refine ⟨rfl, ?_, ?_⟩
  · intro alloc rem h
    simp only [main_select]
    rw [if_neg (not_lt.mpr h)]
  · intro alloc rem ga gr h1 h2
    constructor
    · intro h3
      simp only [main_select, h2]
      rw [if_pos h1, if_pos h3]
    · intro h3
      simp only [main_select, h2]
      rw [if_pos h1, if_neg (not_lt.mpr h3)]

theorem main_select_policy_witness :
    main_select [⟨"A", 8, 10⟩] 10 none = greedy_fill_full [⟨"A", 8, 10⟩] 10 ∧
    main_select [⟨"A", 8, 10⟩] 10 (some ([], (1/100) * 10)) =
      some ([], (1/100) * 10) ∧
    main_select [⟨"A", 8, 10⟩] 10 (some ([], 10)) =
      some ([⟨"A", 1, 10, 10, 8⟩], 0) := by
  have h := main_select_policy [⟨"A", 8, 10⟩] 10
  have heval : greedy_fill_full [⟨"A", 8, 10⟩] 10 = some ([mkLine ⟨"A", 8, 10⟩], 0) :=
    greedy_single_eval ⟨"A", 8, 10⟩ (by norm_num)
  refine ⟨h.1, h.2.1 [] ((1/100) * 10) (le_refl _), ?_⟩
  exact (h.2.2 [] 10 [mkLine ⟨"A", 8, 10⟩] 0 (by norm_num) heval).1 (by norm_num)

/-- Claim C3 counterexample: for `budget = 1000` and `min_invest = 2000`
(an unaffordable candidate) the code's variable cap is 1, while the claimed
formula `min(max_lots, ⌊budget/min_invest⌋)` gives 0. -/
theorem lot_cap_unaffordable_not_zero :
    lot_cap 1000 2000 = 1 ∧
      min DEFAULT_MAX_LOTS_PER_IPO ⌊(1000 : ℚ) / 2000⌋ = 0 ∧ (1 : ℤ) ≠ 0 := by
  refine ⟨?_, ?_, by norm_num⟩
  · norm_num [lot_cap, DEFAULT_MAX_LOTS_PER_IPO, min_def, max_def]
  · norm_num [DEFAULT_MAX_LOTS_PER_IPO, min_def]

/-- Claim C3 (status: corrected): each integer lot variable has lower bound
0 and upper bound `min(3, max(1, ⌊budget/min_invest⌋))`; this coincides with
the claimed `min(max_lots, ⌊budget/min_invest⌋)` whenever
`min_invest ≤ budget`, but an unaffordable candidate gets upper bound 1
(never 0), because of the `max(1, …)` at line 339. -/
theorem var_bounds_spec (cands : List Cand) (budget : ℚ) (hb : 0 ≤ budget) :
    ∀ c ∈ cands,
      (c.ipo, (0 : ℤ), lot_cap budget c.min_invest) ∈ var_bounds cands budget ∧
      (c.min_invest ≤ budget → 0 < c.min_invest →
        lot_cap budget c.min_invest =
          min DEFAULT_MAX_LOTS_PER_IPO ⌊budget / c.min_invest⌋) ∧
      (budget < c.min_invest → 0 < c.min_invest →
        lot_cap budget c.min_invest = 1) := by
  intro c hc
  refine ⟨List.mem_map_of_mem _ hc, ?_, ?_⟩
  · intro haff hpos
    rw [lot_cap]
    congr 1
    rw [max_eq_right]
    exact Int.le_floor.mpr (by rw [Int.cast_one]; exact (one_le_div hpos).mpr haff)
  · intro hlt hpos
    rw [lot_cap]
    have h0 : ⌊budget / c.min_invest⌋ = 0 := by
      rw [Int.floor_eq_zero_iff]
      exact Set.mem_Ico.mpr ⟨div_nonneg hb hpos.le, (div_lt_one hpos).mpr hlt⟩
    rw [h0]
    norm_num [DEFAULT_MAX_LOTS_PER_IPO, min_def, max_def]

theorem var_bounds_spec_witness :
    ((⟨"A", 8, 10⟩ : Cand).ipo, (0 : ℤ), lot_cap 100 (10 : ℚ)) ∈
      var_bounds [⟨"A", 8, 10⟩] 100 ∧
    lot_cap 100 (10 : ℚ) = min DEFAULT_MAX_LOTS_PER_IPO ⌊(100 : ℚ) / 10⌋ := by
  have h := var_bounds_spec [⟨"A", 8, 10⟩] 100 (by norm_num) ⟨"A", 8, 10⟩
    (List.mem_singleton_self _)
  exact ⟨h.1, h.2.1 (by norm_num) (by norm_num)⟩

theorem roundHalfEven_le_int {z : ℚ} {n : ℤ} (h : z ≤ (n : ℚ)) :
    roundHalfEven z ≤ n := by
  have hfl : ⌊z⌋ ≤ n := by
    have := Int.floor_le_floor h
    rwa [Int.floor_intCast] at this
  rw [roundHalfEven]
  by_cases h1 : z - ⌊z⌋ < 1/2
  · rw [if_pos h1]; exact hfl
  · rw [if_neg h1]
    have hge : (1 : ℚ)/2 ≤ z - ⌊z⌋ := not_lt.mp h1
    by_cases h2 : 1/2 < z - ⌊z⌋
    · rw [if_pos h2]
      have : (⌊z⌋ : ℚ) + 1/2 < (n : ℚ) := by linarith
      have hlt : ⌊z⌋ < n := by exact_mod_cast (by linarith : (⌊z⌋ : ℚ) < (n : ℚ))
      omega
    · rw [if_neg h2]
      have heq : z - ⌊z⌋ = 1/2 := le_antisymm (not_lt.mp h2) hge
      have : (⌊z⌋ : ℚ) + 1/2 ≤ (n : ℚ) := by linarith
      have hlt : (⌊z⌋ : ℚ) < (n : ℚ) := by linarith
      have hlt' : ⌊z⌋ < n := by exact_mod_cast hlt
      by_cases h3 : ⌊z⌋ % 2 = 0
      · rw [if_pos h3]; omega
      · rw [if_neg h3]; omega

theorem round3_le_ten {q : ℚ} (h : q ≤ 10) : round3 q ≤ 10 := by
  have h1 : q * 1000 ≤ ((10000 : ℤ) : ℚ) := by push_cast; linarith
  have h2 := roundHalfEven_le_int h1
  rw [round3, div_le_iff₀ (by norm_num : (0:ℚ) < 1000)]
  calc ((roundHalfEven (q * 1000) : ℤ) : ℚ) ≤ ((10000 : ℤ) : ℚ) := by exact_mod_cast h2
  _ = 10 * 1000 := by norm_num

theorem round3_zero : round3 0 = 0 := by
  norm_num [round3, roundHalfEven]

theorem round3_five : round3 5 = 5 := by
  norm_num [round3, roundHalfEven]

/-- Normal form of the scoring engine: it always returns `some`, with the
composite and breakdown as written at lines 217-228, where `gs` is the raw
grey-market strength (the computed ratio under the truthiness guard, 0
otherwise). -/
theorem compute_shape (ipo : IpoDoc) (analysis : AnalysisRec) :
    ∃ gs : ℚ,
      compute_composite_and_breakdown ipo analysis =
        some (round3 (min (3/10 * analysis.score.getD 5 +
            1/4 * (min (extract_retail_quota ipo.quota / 10) 1 * 10) +
            1/5 * extract_fundamental_score ipo.fund_text + 3/20 * (gs / 10) +
            1/10 * extract_sentiment ipo.overview) 10),
          ⟨analysis.score.getD 5, extract_retail_quota ipo.quota,
            round3 (min (extract_retail_quota ipo.quota / 10) 1 * 10),
            round3 (extract_fundamental_score ipo.fund_text),
            round3 (extract_sentiment ipo.overview), round3 gs⟩) ∧
      (ipo.gmp_investorgain.getD 0 ≠ 0 ∧ (parse_issue_mid ipo.issue_price).getD 0 ≠ 0 →
        gs = ipo.gmp_investorgain.getD 0 / (parse_issue_mid ipo.issue_price).getD 0 * 100) ∧
      (¬(ipo.gmp_investorgain.getD 0 ≠ 0 ∧ (parse_issue_mid ipo.issue_price).getD 0 ≠ 0) →
        gs = 0) := by
  by_cases hcond : ipo.gmp_investorgain.getD 0 ≠ 0 ∧ (parse_issue_mid ipo.issue_price).getD 0 ≠ 0
  · refine ⟨ipo.gmp_investorgain.getD 0 / (parse_issue_mid ipo.issue_price).getD 0 * 100,
      ?_, fun _ => rfl, fun h => absurd hcond h⟩
    simp only [compute_composite_and_breakdown, if_pos hcond, pyDiv,
      if_neg hcond.2, Option.map_some']
  · refine ⟨0, ?_, fun h => absurd h hcond, fun _ => rfl⟩
    simp only [compute_composite_and_breakdown, if_neg hcond]

/-- Claim C2 counterexample: an offering with grey-market premium −5 and a
positive resolved mid-price 100 gets `gmp_strength_pct = −5` in its
breakdown, not the 0 the claim requires for a negative premium (Python's
`if (gmp and issue)` treats a negative float as truthy). -/
theorem gmp_strength_negative_not_zeroed :
    (compute_composite_and_breakdown
        ⟨none, none, none, some (-5), PriceField.dictP (some 100),
          LotField.absent, "Mainboard", none⟩
        ⟨some "scored", some 5⟩).map (fun p => p.2.gmp_strength_pct) =
      some (-5) ∧ ((-5 : ℚ) ≠ 0) := by
  constructor
  · norm_num [compute_composite_and_breakdown, parse_issue_mid, pyDiv,
      round3, roundHalfEven]
  · norm_num

/-- Claim C2 (status: corrected): the breakdown's `gmp_strength_pct` equals
the rounded `(grey_market_premium / issue_mid_price) × 100` whenever both
operands are present and nonzero — including a negative premium, which is
not zeroed — and equals 0 exactly when the premium is absent-or-zero or the
mid-price is unresolvable-or-zero. -/
theorem gmp_strength_pct_spec (ipo : IpoDoc) (analysis : AnalysisRec) :
    (ipo.gmp_investorgain.getD 0 ≠ 0 → (parse_issue_mid ipo.issue_price).getD 0 ≠ 0 →
      (compute_composite_and_breakdown ipo analysis).map (fun p => p.2.gmp_strength_pct) =
        some (round3 (ipo.gmp_investorgain.getD 0 /
          (parse_issue_mid ipo.issue_price).getD 0 * 100))) ∧
    (ipo.gmp_investorgain.getD 0 = 0 ∨ (parse_issue_mid ipo.issue_price).getD 0 = 0 →
      (compute_composite_and_breakdown ipo analysis).map (fun p => p.2.gmp_strength_pct) =
        some 0) := by
  obtain ⟨gs, heq, hposg, hnegg⟩ := compute_shape ipo analysis
  constructor
  · intro hg hi
    rw [heq, Option.map_some']
    simp only
    rw [hposg ⟨hg, hi⟩]
  · intro h
    rw [heq, Option.map_some']
    simp only
    rw [hnegg (by tauto), round3_zero]

theorem gmp_strength_pct_spec_witness :
    (compute_composite_and_breakdown
        ⟨none, none, none, some 5, PriceField.dictP (some 100),
          LotField.absent, "Mainboard", none⟩
        ⟨some "scored", some 5⟩).map (fun p => p.2.gmp_strength_pct) =
      some (round3 ((5 : ℚ) / 100 * 100)) := by
  have h := (gmp_strength_pct_spec
    ⟨none, none, none, some 5, PriceField.dictP (some 100),
      LotField.absent, "Mainboard", none⟩
    ⟨some "scored", some 5⟩).1 (by decide) (by decide)
  exact h

/-- Claim C9 (status: confirmed): the scoring operation is total — in
particular the guarded ratio division can never raise — and each missing
input resolves to its documented default (base 5, retail quota 10,
fundamental 5, sentiment 5, grey-market strength 0). -/
theorem score_total_with_defaults (ipo : IpoDoc) (analysis : AnalysisRec) :
    (compute_composite_and_breakdown ipo analysis).isSome = true ∧
    (analysis.score = none →
      (compute_composite_and_breakdown ipo analysis).map (fun p => p.2.base_score) =
        some 5) ∧
    (ipo.quota = none ∨ ipo.quota = some none →
      (compute_composite_and_breakdown ipo analysis).map (fun p => p.2.retail_quota_pct) =
        some 10) ∧
    (ipo.fund_text = none →
      (compute_composite_and_breakdown ipo analysis).map (fun p => p.2.fund_score) =
        some 5) ∧
    (ipo.overview = none →
      (compute_composite_and_breakdown ipo analysis).map (fun p => p.2.sentiment_score) =
        some 5) ∧
    (ipo.gmp_investorgain = none →
      (compute_composite_and_breakdown ipo analysis).map (fun p => p.2.gmp_strength_pct) =
        some 0) := by
  obtain ⟨gs, heq, hposg, hnegg⟩ := compute_shape ipo analysis
  refine ⟨by rw [heq]; rfl, ?_, ?_, ?_, ?_, ?_⟩
  · intro h
    rw [heq, Option.map_some']
    simp only
    rw [h]
    rfl
  · intro h
    rw [heq, Option.map_some']
    simp only
    rcases h with h | h <;> rw [h] <;> rfl
  · intro h
    rw [heq, Option.map_some']
    simp only
    rw [h]
    show some (round3 5) = some 5
    rw [round3_five]
  · intro h
    rw [heq, Option.map_some']
    simp only
    rw [h]
    show some (round3 5) = some 5
    rw [round3_five]
  · intro h
    rw [heq, Option.map_some']
    simp only
    have hz : gs = 0 := hnegg (fun hab => hab.1 (by rw [h]; rfl))
    rw [hz, round3_zero]

theorem score_total_with_defaults_witness :
    (compute_composite_and_breakdown
        ⟨none, none, none, none, PriceField.absent, LotField.absent, "Mainboard", none⟩
        ⟨none, none⟩).isSome = true ∧
    (compute_composite_and_breakdown
        ⟨none, none, none, none, PriceField.absent, LotField.absent, "Mainboard", none⟩
        ⟨none, none⟩).map (fun p => p.2.base_score) = some 5 ∧
    (compute_composite_and_breakdown
        ⟨none, none, none, none, PriceField.absent, LotField.absent, "Mainboard", none⟩
        ⟨none, none⟩).map (fun p => p.2.retail_quota_pct) = some 10 ∧
    (compute_composite_and_breakdown
        ⟨none, none, none, none, PriceField.absent, LotField.absent, "Mainboard", none⟩
        ⟨none, none⟩).map (fun p => p.2.fund_score) = some 5 ∧
    (compute_composite_and_breakdown
        ⟨none, none, none, none, PriceField.absent, LotField.absent, "Mainboard", none⟩
        ⟨none, none⟩).map (fun p => p.2.sentiment_score) = some 5 ∧
    (compute_composite_and_breakdown
        ⟨none, none, none, none, PriceField.absent, LotField.absent, "Mainboard", none⟩
        ⟨none, none⟩).map (fun p => p.2.gmp_strength_pct) = some 0 := by
  have h := score_total_with_defaults
    ⟨none, none, none, none, PriceField.absent, LotField.absent, "Mainboard", none⟩
    ⟨none, none⟩
  exact ⟨h.1, h.2.1 rfl, h.2.2.1 (Or.inl rfl), h.2.2.2.1 rfl,
    h.2.2.2.2.1 rfl, h.2.2.2.2.2 rfl⟩


/-- Values produced by the market-lot regexes are nonnegative: a returned
lot count is a nonzero digit capture and a returned minimum amount is a
digit capture. -/
theorem parse_lot_values {f : LotField} {lot : Option ℕ} {minv : Option ℚ}
    (h : parse_lot_and_min_invest f = some (lot, minv)) :
    (∀ mv, minv = some mv → 0 ≤ mv) ∧ (∀ l, lot = some l → 0 < l) := by
  cases f with
  | absent =>
    simp only [parse_lot_and_min_invest] at h
    cases h
    constructor
    · intro mv hmv; cases hmv
    · intro l hl; cases hl
  | m1 lotD minD =>
    simp only [parse_lot_and_min_invest] at h
    cases h
    constructor
    · intro mv hmv
      cases minD with
      | none => cases hmv
      | some n =>
        have hmv' : (if n = 0 then none else some ((n : ℕ) : ℚ)) = some mv := hmv
        by_cases hn : n = 0
        · rw [if_pos hn] at hmv'
          cases hmv'
        · rw [if_neg hn] at hmv'
          cases Option.some.inj hmv'
          exact_mod_cast Nat.zero_le n
    · intro l hl
      by_cases hl0 : lotD = 0
      · rw [if_pos hl0] at hl
        cases hl
      · rw [if_neg hl0] at hl
        cases Option.some.inj hl
        exact Nat.pos_of_ne_zero hl0
  | m2 minD =>
    cases minD with
    | none =>
      simp only [parse_lot_and_min_invest] at h
      cases h
    | some n =>
      simp only [parse_lot_and_min_invest] at h
      cases h
      constructor
      · intro mv hmv
        cases Option.some.inj hmv
        exact_mod_cast Nat.zero_le n
      · intro l hl
        cases hl
  | noMatch =>
    simp only [parse_lot_and_min_invest] at h
    cases h
    constructor
    · intro mv hmv; cases hmv
    · intro l hl; cases hl

/-- The fallback of line 263 is positive when the issue mid-price is
positive. -/
theorem lot_fallback_pos {lot : Option ℕ} {im : ℚ} (him : 0 < im)
    (hl : ∀ l, lot = some l → 0 < l) : 0 < lot_fallback lot im := by
  cases lot with
  | none =>
    simp only [lot_fallback]
    rw [MIN_INVEST_MAINBOARD]
    norm_num
  | some l =>
    simp only [lot_fallback]
    have hql : (0 : ℚ) < (l : ℚ) := by exact_mod_cast hl l rfl
    exact mul_pos hql him

/-- The `min_invest` resolution chain of lines 261-263 yields a positive
value whenever the resolved issue mid-price is positive: a parsed nonzero
amount is positive, a derived `lot × issue_mid` is positive, and the
mainboard default is positive. -/
theorem min_inv_resolution_pos {lot : Option ℕ} {minv : Option ℚ} {im : ℚ}
    (him : 0 < im)
    (hmv : ∀ mv, minv = some mv → 0 ≤ mv) (hl : ∀ l, lot = some l → 0 < l) :
    0 < resolve_min_invest lot minv im := by
  cases minv with
  | none =>
    simp only [resolve_min_invest]
    exact lot_fallback_pos him hl
  | some mv =>
    simp only [resolve_min_invest]
    by_cases h0 : mv = 0
    · rw [if_pos h0]
      exact lot_fallback_pos him hl
    · rw [if_neg h0]
      exact lt_of_le_of_ne (hmv mv rfl) (Ne.symm h0)

/-- Claim C5 (status: corrected): every candidate built has composite score
in `[1, 10]` (indeed in `[5, 10]`, by the eligibility floor and the cap),
and its minimum investment is positive whenever its resolved issue mid-price
is positive; a structured price field carrying a negative value slips
through the `if not issue_mid` truthiness filter and can produce a negative
derived `min_invest = lot × issue_mid`. -/
theorem build_candidates_invariants :
    ∀ (ipos : List (String × IpoDoc)) (scored : String → Option AnalysisRec)
      (hold : ℤ) (cands : List Candidate),
      build_candidates ipos scored hold = some cands →
      ∀ c ∈ cands, 1 ≤ c.composite ∧ c.composite ≤ 10 ∧
        (0 < c.issue_mid → 0 < c.min_invest) := by
  intro ipos
  induction ipos with
  | nil =>
    intro scored hold cands h c hc
    rw [build_candidates] at h
    cases h
    cases hc
  | cons p rest ih =>
    obtain ⟨name, ipo⟩ := p
    intro scored hold cands h c hc
    rw [build_candidates] at h
    rcases hscored : scored name with _ | analysis
    · rw [hscored] at h
      exact ih scored hold cands h c hc
    · simp only [hscored] at h
      by_cases hst : analysis.status ≠ some "scored" ∧ analysis.score = none
      · rw [if_pos hst] at h
        exact ih scored hold cands h c hc
      · rw [if_neg hst] at h
        rcases hclose : ipo.close_date with _ | cd
        · rw [hclose] at h
          exact ih scored hold cands h c hc
        · simp only [hclose] at h
          by_cases hhold : hold < cd
          · rw [if_pos hhold] at h
            exact ih scored hold cands h c hc
          · rw [if_neg hhold] at h
            rcases him : parse_issue_mid ipo.issue_price with _ | im
            · rw [him] at h
              exact ih scored hold cands h c hc
            · simp only [him] at h
              by_cases him0 : im = 0
              · rw [if_pos him0] at h
                exact ih scored hold cands h c hc
              · rw [if_neg him0] at h
                rcases hpl : parse_lot_and_min_invest ipo.market_lot with _ | lm
                · rw [hpl] at h
                  cases h
                · obtain ⟨lot, minv⟩ := lm
                  simp only [hpl] at h
                  obtain ⟨gs, hcomp, -, -⟩ := compute_shape ipo analysis
                  simp only [hcomp] at h
                  by_cases hlt : round3 (min (3/10 * analysis.score.getD 5 +
                      1/4 * (min (extract_retail_quota ipo.quota / 10) 1 * 10) +
                      1/5 * extract_fundamental_score ipo.fund_text + 3/20 * (gs / 10) +
                      1/10 * extract_sentiment ipo.overview) 10) < 5
                  · rw [if_pos hlt] at h
                    exact ih scored hold cands h c hc
                  · rw [if_neg hlt] at h
                    rcases hrest : build_candidates rest scored hold with _ | cs
                    · rw [hrest] at h
                      cases h
                    · rw [hrest, Option.map_some'] at h
                      have hcands := (Option.some.inj h).symm
                      subst hcands
                      rcases List.mem_cons.mp hc with rfl | htail
                      · refine ⟨?_, ?_, ?_⟩
                        · have h5 := not_lt.mp hlt
                          exact le_trans (by norm_num) h5
                        · show round3 (min _ 10) ≤ (10 : ℚ)
                          exact round3_le_ten (min_le_right _ _)
                        · intro himpos
                          exact min_inv_resolution_pos himpos
                            (parse_lot_values hpl).1 (parse_lot_values hpl).2
                      · exact ih scored hold cs hrest c htail

/-- Claim C5 counterexample: an offering whose structured issue-price field
resolves to −100 passes the `if not issue_mid` filter (negative floats are
truthy), and with a parsed lot of 10 and no parsed amount the derived
`min_invest = lot × issue_mid = −1000` is negative — so `min_invest > 0`
does not hold for every input mapping. -/
theorem build_candidates_negative_min_invest :
    build_candidates
      [("X", ⟨none, none, none, none, PriceField.dictP (some (-100)),
        LotField.m1 10 none, "Mainboard", some 0⟩)]
      (fun _ => some ⟨some "scored", some 10⟩) 0 =
      some [⟨"X", "Mainboard", 7, ⟨10, 10, 10, 5, 5, 0⟩, -100, some 10, -1000, 0⟩] ∧
    ¬(0 < (-1000 : ℚ)) := by
  constructor
  · have hcomp : compute_composite_and_breakdown
        ⟨none, none, none, none, PriceField.dictP (some (-100)),
          LotField.m1 10 none, "Mainboard", some 0⟩
        ⟨some "scored", some 10⟩ = some (7, ⟨10, 10, 10, 5, 5, 0⟩) := by
      norm_num [compute_composite_and_breakdown, extract_retail_quota,
        extract_fundamental_score, extract_sentiment, parse_issue_mid,
        round3, roundHalfEven, min_def]
    norm_num [build_candidates, parse_issue_mid, parse_lot_and_min_invest,
      hcomp, resolve_min_invest, lot_fallback]
  · norm_num

theorem build_candidates_invariants_witness :
    1 ≤ (⟨"X", "Mainboard", 7, ⟨10, 10, 10, 5, 5, 0⟩, 100, some 10, 1000, 0⟩ :
        Candidate).composite ∧
    (⟨"X", "Mainboard", 7, ⟨10, 10, 10, 5, 5, 0⟩, 100, some 10, 1000, 0⟩ :
        Candidate).composite ≤ 10 ∧
    (0 < (⟨"X", "Mainboard", 7, ⟨10, 10, 10, 5, 5, 0⟩, 100, some 10, 1000, 0⟩ :
        Candidate).issue_mid →
      0 < (⟨"X", "Mainboard", 7, ⟨10, 10, 10, 5, 5, 0⟩, 100, some 10, 1000, 0⟩ :
        Candidate).min_invest) := by
  have hcomp : compute_composite_and_breakdown
      ⟨none, none, none, none, PriceField.dictP (some 100),
        LotField.m1 10 none, "Mainboard", some 0⟩
      ⟨some "scored", some 10⟩ = some (7, ⟨10, 10, 10, 5, 5, 0⟩) := by
    norm_num [compute_composite_and_breakdown, extract_retail_quota,
      extract_fundamental_score, extract_sentiment, parse_issue_mid,
      round3, roundHalfEven, min_def]
  have heval : build_candidates
      [("X", ⟨none, none, none, none, PriceField.dictP (some 100),
        LotField.m1 10 none, "Mainboard", some 0⟩)]
      (fun _ => some ⟨some "scored", some 10⟩) 0 =
      some [⟨"X", "Mainboard", 7, ⟨10, 10, 10, 5, 5, 0⟩, 100, some 10, 1000, 0⟩] := by
    norm_num [build_candidates, parse_issue_mid, parse_lot_and_min_invest,
      hcomp, resolve_min_invest, lot_fallback]
  exact build_candidates_invariants _ _ _ _ heval _ (List.mem_singleton_self _)

theorem seedPass_growth : ∀ (cs : List Cand) (alloc : List AllocLine) (rem : ℚ),
    (∀ x ∈ cs, 0 ≤ x.min_invest) →
    sumInvested alloc ≤ sumInvested (seedPass cs alloc rem).1 := by
  intro cs
  induction cs with
  | nil => intro alloc rem _; exact le_refl _
  | cons c cs ih =>
    intro alloc rem hnn
    have hc : 0 ≤ c.min_invest := hnn c (List.mem_cons_self c cs)
    have hcs : ∀ x ∈ cs, 0 ≤ x.min_invest := fun x hx => hnn x (List.mem_cons_of_mem c hx)
    rw [seedPass]
    by_cases hfit : c.min_invest ≤ rem
    · rw [if_pos hfit]
      refine le_trans ?_ (ih _ _ hcs)
      rw [sumInvested_append]
      simp only [sumInvested, List.map_cons, List.map_nil, List.sum_cons,
        List.sum_nil, mkLine]
      linarith
    · rw [if_neg hfit]
      exact ih _ _ hcs

theorem sweepTopK_growth (minUnit : ℚ) (hpos : 0 < minUnit) :
    ∀ (cs : List Cand) (alloc : List AllocLine) (rem : ℚ) (added : Bool),
      (∀ x ∈ cs, minUnit ≤ x.min_invest) →
      sumInvested alloc ≤ sumInvested (sweepTopK minUnit cs alloc rem added).1 := by
  intro cs
  induction cs with
  | nil => intro alloc rem added _; exact le_refl _
  | cons c cs ih =>
    intro alloc rem added hmin
    have hc : minUnit ≤ c.min_invest := hmin c (List.mem_cons_self c cs)
    have hcs : ∀ x ∈ cs, minUnit ≤ x.min_invest :=
      fun x hx => hmin x (List.mem_cons_of_mem c hx)
    have hstep : sumInvested alloc ≤ sumInvested (addLot alloc c) := by
      rw [sumInvested_addLot]
      linarith
    rw [sweepTopK]
    by_cases hfit : c.min_invest ≤ rem
    · simp only [if_pos hfit]
      by_cases hbr : rem - c.min_invest < minUnit
      · rw [if_pos hbr]
        exact hstep
      · rw [if_neg hbr]
        exact le_trans hstep (ih _ _ _ hcs)
    · simp only [if_neg hfit]
      by_cases hbr : rem < minUnit
      · simp only [if_pos hbr]
        exact le_refl _
      · rw [if_neg hbr]
        exact ih _ _ _ hcs

/-- Either a sweep leaves the state untouched, or it buys at least one lot
and grows the invested total by at least one `minUnit`. -/
theorem sweepTopK_extend (minUnit : ℚ) (hpos : 0 < minUnit) :
    ∀ (cs : List Cand) (alloc : List AllocLine) (rem : ℚ) (added : Bool),
      (∀ x ∈ cs, minUnit ≤ x.min_invest) →
      ((sweepTopK minUnit cs alloc rem added).1 = alloc ∧
        (sweepTopK minUnit cs alloc rem added).2.1 = rem ∧
        (sweepTopK minUnit cs alloc rem added).2.2 = added) ∨
      sumInvested alloc + minUnit ≤ sumInvested (sweepTopK minUnit cs alloc rem added).1 := by
  intro cs
  induction cs with
  | nil => intro alloc rem added _; exact Or.inl ⟨rfl, rfl, rfl⟩
  | cons c cs ih =>
    intro alloc rem added hmin
    have hc : minUnit ≤ c.min_invest := hmin c (List.mem_cons_self c cs)
    have hcs : ∀ x ∈ cs, minUnit ≤ x.min_invest :=
      fun x hx => hmin x (List.mem_cons_of_mem c hx)
    rw [sweepTopK]
    by_cases hfit : c.min_invest ≤ rem
    · simp only [if_pos hfit]
      have hstep : sumInvested alloc + minUnit ≤ sumInvested (addLot alloc c) := by
        rw [sumInvested_addLot]
        linarith
      by_cases hbr : rem - c.min_invest < minUnit
      · rw [if_pos hbr]
        exact Or.inr hstep
      · rw [if_neg hbr]
        exact Or.inr (le_trans hstep (sweepTopK_growth minUnit hpos cs _ _ _ hcs))
    · simp only [if_neg hfit]
      by_cases hbr : rem < minUnit
      · refine Or.inl ?_
        simp [hbr]
      · rw [if_neg hbr]
        exact ih _ _ _ hcs

/-- Lockstep comparison of one sweep at two remaining budgets `r1 ≤ r2`:
either the two runs make exactly the same purchases (the allocation and the
`added` flag agree and the budget difference is carried through), or the
richer run has already invested strictly more than the poorer run's whole
current budget `sumInvested alloc + r1`. -/
theorem sweepTopK_mono (minUnit : ℚ) (hpos : 0 < minUnit) :
    ∀ (cs : List Cand) (alloc : List AllocLine) (r1 r2 : ℚ) (added : Bool),
      r1 ≤ r2 → (∀ x ∈ cs, minUnit ≤ x.min_invest) →
      ((sweepTopK minUnit cs alloc r2 added).1 = (sweepTopK minUnit cs alloc r1 added).1 ∧
        (sweepTopK minUnit cs alloc r2 added).2.1 =
          (sweepTopK minUnit cs alloc r1 added).2.1 + (r2 - r1) ∧
        (sweepTopK minUnit cs alloc r2 added).2.2 =
          (sweepTopK minUnit cs alloc r1 added).2.2) ∨
      sumInvested alloc + r1 < sumInvested (sweepTopK minUnit cs alloc r2 added).1 := by
  intro cs
  induction cs with
  | nil =>
    intro alloc r1 r2 added hr _
    refine Or.inl ⟨rfl, ?_, rfl⟩
    show r2 = r1 + (r2 - r1)
    ring
  | cons c cs ih =>
    intro alloc r1 r2 added hr hmin
    have hc : minUnit ≤ c.min_invest := hmin c (List.mem_cons_self c cs)
    have hcs : ∀ x ∈ cs, minUnit ≤ x.min_invest :=
      fun x hx => hmin x (List.mem_cons_of_mem c hx)
    rw [sweepTopK, sweepTopK]
    by_cases h1 : c.min_invest ≤ r1
    · have h2 : c.min_invest ≤ r2 := le_trans h1 hr
      simp only [if_pos h1, if_pos h2]
      by_cases b2 : r2 - c.min_invest < minUnit
      · have b1 : r1 - c.min_invest < minUnit := by linarith
        rw [if_pos b1, if_pos b2]
        exact Or.inl ⟨rfl, (by ring), rfl⟩
      · by_cases b1 : r1 - c.min_invest < minUnit
        · rw [if_pos b1, if_neg b2]
          rcases sweepTopK_extend minUnit hpos cs (addLot alloc c)
              (r2 - c.min_invest) true hcs with ⟨he1, he2, he3⟩ | hprog
          · refine Or.inl ⟨he1, ?_, he3⟩
            rw [he2]
            ring
          · refine Or.inr ?_
            rw [sumInvested_addLot] at hprog
            calc sumInvested alloc + r1 < sumInvested alloc + c.min_invest + minUnit := by
                  linarith
            _ ≤ _ := hprog
        · rw [if_neg b1, if_neg b2]
          rcases ih (addLot alloc c) (r1 - c.min_invest) (r2 - c.min_invest) true
              (by linarith) hcs with ⟨ha, hb, hc'⟩ | hdiv
          · exact Or.inl ⟨ha, (by rw [hb]; ring), hc'⟩
          · refine Or.inr ?_
            rw [sumInvested_addLot] at hdiv
            calc sumInvested alloc + r1 =
                sumInvested alloc + c.min_invest + (r1 - c.min_invest) := by ring
            _ < _ := hdiv
    · by_cases h2 : c.min_invest ≤ r2
      · -- the richer run buys the lot the poorer run cannot afford
        simp only [if_neg h1, if_pos h2]
        refine Or.inr ?_
        have hgt : r1 < c.min_invest := not_le.mp h1
        have hbase : sumInvested alloc + r1 < sumInvested (addLot alloc c) := by
          rw [sumInvested_addLot]
          linarith
        by_cases b2 : r2 - c.min_invest < minUnit
        · rw [if_pos b2]
          exact hbase
        · rw [if_neg b2]
          exact lt_of_lt_of_le hbase (sweepTopK_growth minUnit hpos cs _ _ _ hcs)
      · simp only [if_neg h1, if_neg h2]
        by_cases b2 : r2 < minUnit
        · have b1 : r1 < minUnit := lt_of_le_of_lt hr b2
          rw [if_pos b1, if_pos b2]
          exact Or.inl ⟨rfl, (by ring), rfl⟩
        · by_cases b1 : r1 < minUnit
          · rw [if_pos b1, if_neg b2]
            rcases sweepTopK_extend minUnit hpos cs alloc r2 added hcs with
              ⟨he1, he2, he3⟩ | hprog
            · exact Or.inl ⟨he1, (by rw [he2]; ring), he3⟩
            · exact Or.inr (by linarith)
          · rw [if_neg b1, if_neg b2]
            exact ih alloc r1 r2 added hr hcs

theorem topkLoop_growth (topk : List Cand) (minUnit : ℚ) (hpos : 0 < minUnit)
    (hmin : ∀ x ∈ topk, minUnit ≤ x.min_invest) :
    ∀ (alloc : List AllocLine) (rem : ℚ),
      sumInvested alloc ≤ sumInvested (topkLoop topk minUnit hpos hmin alloc rem).1 := by
  intro alloc rem
  induction alloc, rem using topkLoop.induct topk minUnit hpos hmin with
  | case1 alloc rem h hadd ih =>
    rw [topkLoop, dif_pos h, dif_pos hadd]
    exact le_trans (sweepTopK_growth minUnit hpos topk alloc rem false hmin) ih
  | case2 alloc rem h hadd =>
    rw [topkLoop, dif_pos h, dif_neg hadd]
    exact sweepTopK_growth minUnit hpos topk alloc rem false hmin
  | case3 alloc rem h =>
    rw [topkLoop, dif_neg h]

theorem topkLoop_mono (topk : List Cand) (minUnit : ℚ) (hpos : 0 < minUnit)
    (hmin : ∀ x ∈ topk, minUnit ≤ x.min_invest) :
    ∀ (alloc : List AllocLine) (r2 r1 : ℚ), r1 ≤ r2 →
      ((topkLoop topk minUnit hpos hmin alloc r2).1 =
          (topkLoop topk minUnit hpos hmin alloc r1).1 ∧
        (topkLoop topk minUnit hpos hmin alloc r2).2 =
          (topkLoop topk minUnit hpos hmin alloc r1).2 + (r2 - r1)) ∨
      sumInvested alloc + r1 <
        sumInvested (topkLoop topk minUnit hpos hmin alloc r2).1 := by
  intro alloc r2
  induction alloc, r2 using topkLoop.induct topk minUnit hpos hmin with
  | case1 alloc r2 h hadd ih =>
    intro r1 hr
    have e2 : topkLoop topk minUnit hpos hmin alloc r2 =
        topkLoop topk minUnit hpos hmin (sweepTopK minUnit topk alloc r2 false).1
          (sweepTopK minUnit topk alloc r2 false).2.1 := by
      rw [topkLoop]
      rw [dif_pos h, dif_pos hadd]
    by_cases h1 : minUnit ≤ r1
    · rcases sweepTopK_mono minUnit hpos topk alloc r1 r2 false hr hmin with
        ⟨ha, hrem, hflag⟩ | hdiv
      · have hadd1 : (sweepTopK minUnit topk alloc r1 false).2.2 = true := by
          rw [← hflag]
          exact hadd
        have e1 : topkLoop topk minUnit hpos hmin alloc r1 =
            topkLoop topk minUnit hpos hmin (sweepTopK minUnit topk alloc r1 false).1
              (sweepTopK minUnit topk alloc r1 false).2.1 := by
          rw [topkLoop]
          rw [dif_pos h1, dif_pos hadd1]
        have hsum1 := sweepTopK_sum minUnit topk alloc r1 false
        rw [e1, e2, ← ha]
        rcases ih ((sweepTopK minUnit topk alloc r1 false).2.1)
            (by rw [hrem]; linarith) with ⟨ga, gb⟩ | gdiv
        · refine Or.inl ⟨ga, ?_⟩
          rw [gb, hrem]
          ring
        · refine Or.inr ?_
          have hinv : sumInvested (sweepTopK minUnit topk alloc r2 false).1 =
              sumInvested (sweepTopK minUnit topk alloc r1 false).1 := by
            rw [ha]
          linarith
      · refine Or.inr ?_
        rw [e2]
        exact lt_of_lt_of_le hdiv (topkLoop_growth topk minUnit hpos hmin _ _)
    · have hlt1 : r1 < minUnit := not_le.mp h1
      have e1 : topkLoop topk minUnit hpos hmin alloc r1 = (alloc, r1) :=
        topkLoop_of_lt hlt1
      rcases sweepTopK_extend minUnit hpos topk alloc r2 false hmin with
        ⟨_, _, se3⟩ | hprog
      · exact absurd (se3 ▸ hadd) (by simp)
      · refine Or.inr ?_
        rw [e2]
        have := topkLoop_growth topk minUnit hpos hmin
          (sweepTopK minUnit topk alloc r2 false).1
          (sweepTopK minUnit topk alloc r2 false).2.1
        linarith
  | case2 alloc r2 h hadd =>
    intro r1 hr
    have e2 : topkLoop topk minUnit hpos hmin alloc r2 =
        ((sweepTopK minUnit topk alloc r2 false).1,
          (sweepTopK minUnit topk alloc r2 false).2.1) := by
      rw [topkLoop]
      rw [dif_pos h, dif_neg hadd]
    by_cases h1 : minUnit ≤ r1
    · rcases sweepTopK_mono minUnit hpos topk alloc r1 r2 false hr hmin with
        ⟨ha, hrem, hflag⟩ | hdiv
      · have hadd1 : ¬(sweepTopK minUnit topk alloc r1 false).2.2 = true := by
          rw [← hflag]
          exact hadd
        have e1 : topkLoop topk minUnit hpos hmin alloc r1 =
            ((sweepTopK minUnit topk alloc r1 false).1,
              (sweepTopK minUnit topk alloc r1 false).2.1) := by
          rw [topkLoop]
          rw [dif_pos h1, dif_neg hadd1]
        rw [e1, e2]
        exact Or.inl ⟨ha, hrem⟩
      · refine Or.inr ?_
        rw [e2]
        exact hdiv
    · have hlt1 : r1 < minUnit := not_le.mp h1
      have e1 : topkLoop topk minUnit hpos hmin alloc r1 = (alloc, r1) :=
        topkLoop_of_lt hlt1
      rcases sweepTopK_extend minUnit hpos topk alloc r2 false hmin with
        ⟨se1, se2, _⟩ | hprog
      · rw [e1, e2, se1, se2]
        refine Or.inl ⟨rfl, ?_⟩
        show r2 = r1 + (r2 - r1)
        ring
      · refine Or.inr ?_
        rw [e2]
        show sumInvested alloc + r1 < sumInvested (sweepTopK minUnit topk alloc r2 false).1
        linarith
  | case3 alloc r2 h =>
    intro r1 hr
    have hlt2 : r2 < minUnit := not_le.mp h
    have hlt1 : r1 < minUnit := lt_of_le_of_lt hr hlt2
    rw [topkLoop_of_lt hlt2, topkLoop_of_lt hlt1]
    refine Or.inl ⟨rfl, ?_⟩
    show r2 = r1 + (r2 - r1)
    ring

/-- Python `max(l, key=f)` on a possibly-empty list (`none` when Python
would raise). -/
def pyMaxL (f : Cand → ℚ) : List Cand → Option Cand
  | [] => none
  | a :: l => some (pyMaxBy f a l)

theorem pyMaxL_eq_none {f : Cand → ℚ} : ∀ {l : List Cand}, pyMaxL f l = none → l = [] := by
  intro l h
  cases l with
  | nil => rfl
  | cons a l' => cases h

theorem pyMaxL_mem {f : Cand → ℚ} : ∀ {l : List Cand} {m : Cand},
    pyMaxL f l = some m → m ∈ l := by
  intro l m h
  cases l with
  | nil => cases h
  | cons a l' =>
    cases Option.some.inj h
    exact pyMaxBy_mem f l' a

theorem pyMaxBy_le (f : Cand → ℚ) : ∀ (l : List Cand) (a : Cand),
    ∀ x ∈ a :: l, f x ≤ f (pyMaxBy f a l) := by
  intro l
  induction l with
  | nil =>
    intro a x hx
    rcases List.mem_singleton.mp hx with rfl
    exact le_refl _
  | cons y l' ih =>
    intro a x hx
    have hstep : pyMaxBy f a (y :: l') = pyMaxBy f (if f a < f y then y else a) l' := rfl
    rw [hstep]
    have hs : f a ≤ f (if f a < f y then y else a) ∧ f y ≤ f (if f a < f y then y else a) := by
      by_cases hay : f a < f y
      · rw [if_pos hay]
        exact ⟨le_of_lt hay, le_refl _⟩
      · rw [if_neg hay]
        exact ⟨le_refl _, not_lt.mp hay⟩
    have hmax := ih (if f a < f y then y else a)
    rcases List.mem_cons.mp hx with rfl | hx'
    · exact le_trans hs.1 (hmax _ (List.mem_cons_self _ _))
    · rcases List.mem_cons.mp hx' with rfl | hx''
      · exact le_trans hs.2 (hmax _ (List.mem_cons_self _ _))
      · exact hmax x (List.mem_cons_of_mem _ hx'')

theorem pyMaxL_le {f : Cand → ℚ} : ∀ {l : List Cand} {m : Cand},
    pyMaxL f l = some m → ∀ x ∈ l, f x ≤ f m := by
  intro l m h x hx
  cases l with
  | nil => cases hx
  | cons a l' =>
    cases Option.some.inj h
    exact pyMaxBy_le f l' a x hx

/-- Recursive characterization of Python `max`: the maximum of `a :: y :: l`
is the maximum of `y :: l` when that is strictly greater than `a`, else `a`
(key ties keep the earlier element). -/
theorem pyMaxBy_cons_char (f : Cand → ℚ) : ∀ (l' : List Cand) (a y : Cand),
    pyMaxBy f a (y :: l') =
      if f a < f (pyMaxBy f y l') then pyMaxBy f y l' else a := by
  intro l'
  induction l' with
  | nil => intro a y; rfl
  | cons z l'' ih =>
    intro a y
    have hstep : pyMaxBy f a (y :: z :: l'') =
        pyMaxBy f (if f a < f y then y else a) (z :: l'') := rfl
    rw [hstep, ih _ z, ih y z]
    by_cases hay : f a < f y
    · rw [if_pos hay]
      by_cases hym : f y < f (pyMaxBy f z l'')
      · rw [if_pos hym]
        rw [if_pos (lt_trans hay hym)]
      · rw [if_neg hym]
        rw [if_pos hay]
    · rw [if_neg hay]
      by_cases hym : f y < f (pyMaxBy f z l'')
      · rw [if_pos hym]
      · rw [if_neg hym]
        have hma : ¬ f a < f (pyMaxBy f z l'') :=
          not_lt.mpr (le_trans (not_lt.mp hym) (not_lt.mp hay))
        rw [if_neg hma]
        rw [if_neg hay]

theorem filter_sublist_of_imp {p q : Cand → Bool}
    (himp : ∀ x, p x = true → q x = true) :
    ∀ l : List Cand, List.Sublist (l.filter p) (l.filter q) := by
  intro l
  induction l with
  | nil => exact List.Sublist.refl _
  | cons x l ih =>
    by_cases hpx : p x = true
    · rw [List.filter_cons_of_pos hpx, List.filter_cons_of_pos (himp x hpx)]
      exact List.Sublist.cons₂ x ih
    · rw [List.filter_cons_of_neg (by simpa using hpx)]
      by_cases hqx : q x = true
      · rw [List.filter_cons_of_pos hqx]
        exact List.Sublist.cons x ih
      · rw [List.filter_cons_of_neg (by simpa using hqx)]
        exact ih

/-- First-maximum stability under filter refinement: if the Python maximum
of the coarser filter also satisfies the finer predicate, it is the Python
maximum of the finer filter as well (key ties are broken by original list
position in both). -/
theorem pyMaxL_filter (f : Cand → ℚ) {p q : Cand → Bool}
    (himp : ∀ x, p x = true → q x = true) :
    ∀ (L : List Cand) (m2 : Cand),
      pyMaxL f (L.filter q) = some m2 → p m2 = true →
      pyMaxL f (L.filter p) = some m2 := by
  intro L
  induction L with
  | nil => intro m2 h _; cases h
  | cons x L ih =>
    intro m2 h hpm2
    by_cases hpx : p x = true
    · have hqx : q x = true := himp x hpx
      rw [List.filter_cons_of_pos hqx] at h
      rw [List.filter_cons_of_pos hpx]
      rcases hq : L.filter q with _ | ⟨yq, restq⟩
    <;> rw [hq] at h
      · have hx2 : x = m2 := Option.some.inj h
        have hnil1 : L.filter p = [] := by
          have hsub := filter_sublist_of_imp himp L
          rw [hq] at hsub
          exact List.sublist_nil.mp hsub
        rw [hnil1]
        show some (pyMaxBy f x []) = some m2
        rw [show pyMaxBy f x [] = x from rfl, hx2]
      · have hx2 : (if f x < f (pyMaxBy f yq restq) then pyMaxBy f yq restq else x) = m2 := by
          have := Option.some.inj h
          rwa [pyMaxBy_cons_char] at this
        have hqL : pyMaxL f (L.filter q) = some (pyMaxBy f yq restq) := by
          rw [hq]; rfl
        rcases hp : L.filter p with _ | ⟨yp, restp⟩
        · show some (pyMaxBy f x []) = some m2
          by_cases hxq : f x < f (pyMaxBy f yq restq)
          · rw [if_pos hxq] at hx2
            have hmeme : pyMaxBy f yq restq ∈ L.filter p := by
              have h1 : pyMaxBy f yq restq ∈ L.filter q := by
                rw [hq]; exact pyMaxBy_mem f restq yq
              exact List.mem_filter.mpr
                ⟨(List.mem_filter.mp h1).1, hx2 ▸ hpm2⟩
            rw [hp] at hmeme
            cases hmeme
          · rw [if_neg hxq] at hx2
            rw [show pyMaxBy f x [] = x from rfl, hx2]
        · have hpL : pyMaxL f (L.filter p) = some (pyMaxBy f yp restp) := by
            rw [hp]; rfl
          show some (pyMaxBy f x (yp :: restp)) = some m2
          rw [pyMaxBy_cons_char]
          by_cases hxq : f x < f (pyMaxBy f yq restq)
          · rw [if_pos hxq] at hx2
            have hmq1 := ih (pyMaxBy f yq restq) hqL (hx2 ▸ hpm2)
            have hpq : pyMaxBy f yp restp = pyMaxBy f yq restq :=
              Option.some.inj (hpL.symm.trans hmq1)
            rw [hpq, if_pos hxq, hx2]
          · rw [if_neg hxq] at hx2
            have hmpq : pyMaxBy f yp restp ∈ L.filter q := by
              have hmem : pyMaxBy f yp restp ∈ L.filter p := by
                rw [hp]; exact pyMaxBy_mem f restp yp
              exact List.mem_filter.mpr
                ⟨(List.mem_filter.mp hmem).1, himp _ (List.mem_filter.mp hmem).2⟩
            have hle : f (pyMaxBy f yp restp) ≤ f (pyMaxBy f yq restq) :=
              pyMaxL_le hqL _ hmpq
            have hxp : ¬ f x < f (pyMaxBy f yp restp) :=
              not_lt.mpr (le_trans hle (not_lt.mp hxq))
            rw [if_neg hxp, hx2]
    · rw [List.filter_cons_of_neg (by simpa using hpx)]
      by_cases hqx : q x = true
      · rw [List.filter_cons_of_pos hqx] at h
        rcases hq : L.filter q with _ | ⟨yq, restq⟩
      <;> rw [hq] at h
        · have hx2 : x = m2 := Option.some.inj h
          exact absurd (hx2 ▸ hpm2) hpx
        · have hx2 : (if f x < f (pyMaxBy f yq restq) then pyMaxBy f yq restq else x) = m2 := by
            have := Option.some.inj h
            rwa [pyMaxBy_cons_char] at this
          have hqL : pyMaxL f (L.filter q) = some (pyMaxBy f yq restq) := by
            rw [hq]; rfl
          by_cases hxq : f x < f (pyMaxBy f yq restq)
          · rw [if_pos hxq] at hx2
            exact ih m2 (hx2 ▸ hqL) hpm2
          · rw [if_neg hxq] at hx2
            exact absurd (hx2 ▸ hpm2) hpx
      · rw [List.filter_cons_of_neg (by simpa using hqx)] at h
        exact ih m2 h hpm2

theorem drainLoop_stop {cands : List Cand} {minUnit : ℚ} {hpos : 0 < minUnit}
    {hmin : ∀ x ∈ cands, minUnit ≤ x.min_invest} {alloc : List AllocLine} {rem : ℚ}
    (h : minUnit ≤ rem)
    (haff : cands.filter (fun c => c.min_invest ≤ rem) = []) :
    drainLoop cands minUnit hpos hmin alloc rem = (alloc, rem) := by
  rw [drainLoop, dif_pos h]
  split
  · rfl
  · rename_i a as heq
    exact absurd (haff.symm.trans heq).symm (List.cons_ne_nil a as)

theorem drainLoop_step {cands : List Cand} {minUnit : ℚ} {hpos : 0 < minUnit}
    {hmin : ∀ x ∈ cands, minUnit ≤ x.min_invest} {alloc : List AllocLine} {rem : ℚ}
    {a : Cand} {as : List Cand} (h : minUnit ≤ rem)
    (haff : cands.filter (fun c => c.min_invest ≤ rem) = a :: as) :
    drainLoop cands minUnit hpos hmin alloc rem =
      drainLoop cands minUnit hpos hmin (addLot alloc (pyMaxBy density a as))
        (rem - (pyMaxBy density a as).min_invest) := by
  rw [drainLoop, dif_pos h]
  split
  · rename_i heq
    exact absurd (haff.symm.trans heq) (List.cons_ne_nil a as)
  · rename_i a' as' heq
    rw [haff] at heq
    cases heq
    rfl

theorem drainLoop_growth (cands : List Cand) (minUnit : ℚ) (hpos : 0 < minUnit)
    (hmin : ∀ x ∈ cands, minUnit ≤ x.min_invest) :
    ∀ (alloc : List AllocLine) (rem : ℚ),
      sumInvested alloc ≤ sumInvested (drainLoop cands minUnit hpos hmin alloc rem).1 := by
  intro alloc rem
  induction alloc, rem using drainLoop.induct cands minUnit hpos hmin with
  | case1 alloc rem h haff =>
    rw [drainLoop_stop h haff]
  | case2 alloc rem h a as haff ih =>
    rw [drainLoop_step h haff]
    refine le_trans ?_ ih
    rw [sumInvested_addLot]
    have hpickf : pyMaxBy density a as ∈ cands.filter (fun c => c.min_invest ≤ rem) := by
      rw [haff]; exact pyMaxBy_mem density as a
    have hlow := hmin _ (List.mem_filter.mp hpickf).1
    linarith
  | case3 alloc rem h =>
    rw [drainLoop_of_lt (not_le.mp h)]

theorem drainLoop_mono (cands : List Cand) (minUnit : ℚ) (hpos : 0 < minUnit)
    (hmin : ∀ x ∈ cands, minUnit ≤ x.min_invest) :
    ∀ (alloc : List AllocLine) (r2 r1 : ℚ), r1 ≤ r2 →
      ((drainLoop cands minUnit hpos hmin alloc r2).1 =
          (drainLoop cands minUnit hpos hmin alloc r1).1 ∧
        (drainLoop cands minUnit hpos hmin alloc r2).2 =
          (drainLoop cands minUnit hpos hmin alloc r1).2 + (r2 - r1)) ∨
      sumInvested alloc + r1 <
        sumInvested (drainLoop cands minUnit hpos hmin alloc r2).1 := by
  intro alloc r2
  induction alloc, r2 using drainLoop.induct cands minUnit hpos hmin with
  | case1 alloc r2 h haff =>
    intro r1 hr
    have e2 := @drainLoop_stop cands minUnit hpos hmin alloc r2 h haff
    have haff1 : cands.filter (fun c => c.min_invest ≤ r1) = [] := by
      have hsub := @filter_sublist_of_imp
        (fun c => decide (c.min_invest ≤ r1)) (fun c => decide (c.min_invest ≤ r2))
        (fun x hx => decide_eq_true (le_trans (of_decide_eq_true hx) hr)) cands
      rw [haff] at hsub
      exact List.sublist_nil.mp hsub
    have e1 : drainLoop cands minUnit hpos hmin alloc r1 = (alloc, r1) := by
      by_cases h1 : minUnit ≤ r1
      · exact drainLoop_stop h1 haff1
      · exact drainLoop_of_lt (not_le.mp h1)
    rw [e1, e2]
    refine Or.inl ⟨rfl, ?_⟩
    show r2 = r1 + (r2 - r1)
    ring
  | case2 alloc r2 h a as haff ih =>
    intro r1 hr
    have e2 := @drainLoop_step cands minUnit hpos hmin alloc r2 a as h haff
    have hpickf : pyMaxBy density a as ∈ cands.filter (fun c => c.min_invest ≤ r2) := by
      rw [haff]; exact pyMaxBy_mem density as a
    have hpickc : pyMaxBy density a as ∈ cands := (List.mem_filter.mp hpickf).1
    have hpicklow : minUnit ≤ (pyMaxBy density a as).min_invest := hmin _ hpickc
    by_cases h1 : minUnit ≤ r1
    · by_cases hp1 : (pyMaxBy density a as).min_invest ≤ r1
      · have hq2 : pyMaxL density (cands.filter (fun c => c.min_invest ≤ r2)) =
            some (pyMaxBy density a as) := by
          rw [haff]; rfl
        have hm1 : pyMaxL density (cands.filter (fun c => c.min_invest ≤ r1)) =
            some (pyMaxBy density a as) :=
          pyMaxL_filter density
            (fun x hx => decide_eq_true (le_trans (of_decide_eq_true hx) hr))
            cands _ hq2 (decide_eq_true hp1)
        rcases haff1 : cands.filter (fun c => c.min_invest ≤ r1) with _ | ⟨a1, as1⟩
        · rw [haff1] at hm1
          cases hm1
        · rw [haff1] at hm1
          have hpick1 : pyMaxBy density a1 as1 = pyMaxBy density a as :=
            Option.some.inj hm1
          have e1 : drainLoop cands minUnit hpos hmin alloc r1 =
              drainLoop cands minUnit hpos hmin
                (addLot alloc (pyMaxBy density a as))
                (r1 - (pyMaxBy density a as).min_invest) := by
            have estep := @drainLoop_step cands minUnit hpos hmin alloc r1 a1 as1 h1 haff1
            rw [hpick1] at estep
            exact estep
          rw [e1, e2]
          rcases ih (r1 - (pyMaxBy density a as).min_invest) (by linarith) with
            ⟨ga, gb⟩ | gdiv
          · refine Or.inl ⟨ga, ?_⟩
            rw [gb]
            ring
          · refine Or.inr ?_
            rw [sumInvested_addLot] at gdiv
            calc sumInvested alloc + r1 =
                sumInvested alloc + (pyMaxBy density a as).min_invest +
                  (r1 - (pyMaxBy density a as).min_invest) := by ring
            _ < _ := gdiv
      · refine Or.inr ?_
        rw [e2]
        have hgrow := drainLoop_growth cands minUnit hpos hmin
          (addLot alloc (pyMaxBy density a as))
          (r2 - (pyMaxBy density a as).min_invest)
        rw [sumInvested_addLot] at hgrow
        have hlt : r1 < (pyMaxBy density a as).min_invest := not_le.mp hp1
        linarith
    · refine Or.inr ?_
      rw [e2]
      have hgrow := drainLoop_growth cands minUnit hpos hmin
        (addLot alloc (pyMaxBy density a as))
        (r2 - (pyMaxBy density a as).min_invest)
      rw [sumInvested_addLot] at hgrow
      have hlt : r1 < minUnit := not_le.mp h1
      linarith
  | case3 alloc r2 h =>
    intro r1 hr
    have hlt2 : r2 < minUnit := not_le.mp h
    rw [drainLoop_of_lt hlt2, drainLoop_of_lt (lt_of_le_of_lt hr hlt2)]
    refine Or.inl ⟨rfl, ?_⟩
    show r2 = r1 + (r2 - r1)
    ring

theorem seedPass_mono : ∀ (cs : List Cand) (alloc : List AllocLine) (r1 r2 : ℚ),
    r1 ≤ r2 → (∀ x ∈ cs, 0 ≤ x.min_invest) →
    ((seedPass cs alloc r2).1 = (seedPass cs alloc r1).1 ∧
      (seedPass cs alloc r2).2 = (seedPass cs alloc r1).2 + (r2 - r1)) ∨
    sumInvested alloc + r1 < sumInvested (seedPass cs alloc r2).1 := by
  intro cs
  induction cs with
  | nil =>
    intro alloc r1 r2 hr _
    refine Or.inl ⟨rfl, ?_⟩
    show r2 = r1 + (r2 - r1)
    ring
  | cons c cs ih =>
    intro alloc r1 r2 hr hnn
    have hcs : ∀ x ∈ cs, 0 ≤ x.min_invest :=
      fun x hx => hnn x (List.mem_cons_of_mem c hx)
    have hmk : sumInvested [mkLine c] = c.min_invest := by
      simp [sumInvested, mkLine]
    rw [seedPass, seedPass]
    by_cases h1 : c.min_invest ≤ r1
    · rw [if_pos h1, if_pos (le_trans h1 hr)]
      rcases ih (alloc ++ [mkLine c]) (r1 - c.min_invest) (r2 - c.min_invest)
          (by linarith) hcs with ⟨ga, gb⟩ | gdiv
      · refine Or.inl ⟨ga, ?_⟩
        rw [gb]
        ring
      · refine Or.inr ?_
        rw [sumInvested_append, hmk] at gdiv
        calc sumInvested alloc + r1 =
            sumInvested alloc + c.min_invest + (r1 - c.min_invest) := by ring
        _ < _ := gdiv
    · by_cases h2 : c.min_invest ≤ r2
      · rw [if_neg h1, if_pos h2]
        refine Or.inr ?_
        have hgrow := seedPass_growth cs (alloc ++ [mkLine c]) (r2 - c.min_invest) hcs
        rw [sumInvested_append, hmk] at hgrow
        have hgt : r1 < c.min_invest := not_le.mp h1
        linarith
      · rw [if_neg h1, if_neg h2]
        exact ih alloc r1 r2 hr hcs

/-- Claim C6 (status: confirmed): for a fixed nonempty candidate list with
positive minimum units, the greedy heuristic's total invested
(budget − leftover) is monotone in the budget.  The proof runs the two
executions in lockstep: as long as they make identical decisions the budget
difference is carried through; at the first diverging decision the richer
run buys a lot the poorer run could not afford, at which point it has
already invested more than the poorer run's entire budget. -/
theorem greedy_total_invested_monotone (cands : List Cand)
    (hne : cands ≠ []) (hm : ∀ c ∈ cands, 0 < c.min_invest)
    (b1 b2 : ℚ) (hb1 : 0 ≤ b1) (hb : b1 ≤ b2) :
    ∀ a1 r1 a2 r2, greedy_fill_full cands b1 = some (a1, r1) →
      greedy_fill_full cands b2 = some (a2, r2) → b1 - r1 ≤ b2 - r2 := by
  intro a1 r1 a2 r2 hg1 hg2
  have hperm0 : (sortByDensityDesc cands).Perm cands := sortByDensityDesc_perm cands
  cases hs : sortByDensityDesc cands with
  | nil =>
    rw [hs] at hperm0
    exact absurd hperm0.symm.eq_nil hne
  | cons c cs =>
    rw [hs] at hperm0
    have hmemiff : ∀ x : Cand, x ∈ c :: cs ↔ x ∈ cands := fun x => hperm0.mem_iff
    have hpos : 0 < minUnitOf c cs := by
      obtain ⟨x, hx, hxm⟩ := minUnitOf_attained c cs
      rw [← hxm]
      exact hm x ((hmemiff x).mp hx)
    simp only [greedy_fill_full, hs, dif_pos hpos] at hg1 hg2
    set MU := minUnitOf c cs with hMU
    set TK := (c :: cs).take TOP_FILL_K with hTK
    set S1 := seedPass (c :: cs) [] b1 with hS1
    set S2 := seedPass (c :: cs) [] b2 with hS2
    set T1 := topkLoop TK MU hpos
      (fun x hx => minUnitOf_le c cs x (List.take_subset _ _ hx)) S1.1 S1.2 with hT1
    set T2 := topkLoop TK MU hpos
      (fun x hx => minUnitOf_le c cs x (List.take_subset _ _ hx)) S2.1 S2.2 with hT2
    set D1 := drainLoop (c :: cs) MU hpos (minUnitOf_le c cs) T1.1 T1.2 with hD1
    set D2 := drainLoop (c :: cs) MU hpos (minUnitOf_le c cs) T2.1 T2.2 with hD2
    have hR1 : D1.2 = r1 := congrArg Prod.snd (Option.some.inj hg1)
    have hR2 : D2.2 = r2 := congrArg Prod.snd (Option.some.inj hg2)
    have hnil : sumInvested ([] : List AllocLine) = 0 := rfl
    have hb1sumS : sumInvested S1.1 + S1.2 = b1 := by
      rw [hS1, seedPass_sum, hnil]
      ring
    have hb2sumS : sumInvested S2.1 + S2.2 = b2 := by
      rw [hS2, seedPass_sum, hnil]
      ring
    have hb1sumT : sumInvested T1.1 + T1.2 = b1 := by
      rw [hT1, topkLoop_sum]
      exact hb1sumS
    have hb2sumT : sumInvested T2.1 + T2.2 = b2 := by
      rw [hT2, topkLoop_sum]
      exact hb2sumS
    have hsum1 : sumInvested D1.1 + D1.2 = b1 := by
      rw [hD1, drainLoop_sum]
      exact hb1sumT
    have hsum2 : sumInvested D2.1 + D2.2 = b2 := by
      rw [hD2, drainLoop_sum]
      exact hb2sumT
    have hr1nn : 0 ≤ D1.2 := by
      rw [hD1]
      apply drainLoop_rem_nonneg
      rw [hT1]
      apply topkLoop_rem_nonneg
      rw [hS1]
      exact seedPass_rem_nonneg _ _ _ hb1
    have hnn : ∀ x ∈ c :: cs, 0 ≤ x.min_invest :=
      fun x hx => (hm x ((hmemiff x).mp hx)).le
    have hmain : sumInvested D1.1 ≤ sumInvested D2.1 := by
      rcases seedPass_mono (c :: cs) [] b1 b2 hb hnn with ⟨sa, sb⟩ | sdiv
      · rw [← hS1, ← hS2] at sa sb
        have hT2x : T2 = topkLoop TK MU hpos
            (fun x hx => minUnitOf_le c cs x (List.take_subset _ _ hx)) S1.1 S2.2 := by
          rw [hT2, sa]
        rcases topkLoop_mono TK MU hpos
            (fun x hx => minUnitOf_le c cs x (List.take_subset _ _ hx))
            S1.1 S2.2 S1.2 (by rw [sb]; linarith) with ⟨ta, tb⟩ | tdiv
        · rw [← hT1, ← hT2x] at ta tb
          have hdelta : S2.2 - S1.2 = b2 - b1 := by
            rw [sb]
            ring
          rcases drainLoop_mono (c :: cs) MU hpos (minUnitOf_le c cs)
              T1.1 T2.2 T1.2 (by rw [tb, hdelta]; linarith) with ⟨da, db⟩ | ddiv
          · have hD2x : D2 = drainLoop (c :: cs) MU hpos (minUnitOf_le c cs)
                T1.1 T2.2 := by
              rw [hD2, ta]
            rw [← hD1, ← hD2x] at da
            rw [da]
          · have hD2x : D2 = drainLoop (c :: cs) MU hpos (minUnitOf_le c cs)
                T1.1 T2.2 := by
              rw [hD2, ta]
            rw [← hD2x] at ddiv
            linarith
        · rw [← hT2x] at tdiv
          have hgrow := drainLoop_growth (c :: cs) MU hpos (minUnitOf_le c cs) T2.1 T2.2
          rw [← hD2] at hgrow
          linarith
      · rw [← hS2] at sdiv
        have hgrow1 := topkLoop_growth TK MU hpos
          (fun x hx => minUnitOf_le c cs x (List.take_subset _ _ hx)) S2.1 S2.2
        rw [← hT2] at hgrow1
        have hgrow2 := drainLoop_growth (c :: cs) MU hpos (minUnitOf_le c cs) T2.1 T2.2
        rw [← hD2] at hgrow2
        rw [hnil] at sdiv
        linarith
    rw [← hR1, ← hR2]
    linarith

theorem greedy_total_invested_monotone_witness :
    (0 : ℚ) - 0 ≤ 10 - 0 := by
  have h := greedy_total_invested_monotone [⟨"A", 8, 10⟩] (by decide)
    (by intro x hx; rcases List.mem_singleton.mp hx with rfl; norm_num)
    0 10 (le_refl 0) (by norm_num)
  have he1 : greedy_fill_full [(⟨"A", 8, 10⟩ : Cand)] 0 = some ([], 0) :=
    greedy_single_small_eval ⟨"A", 8, 10⟩ (by norm_num) 0 (by norm_num)
  have he2 : greedy_fill_full [(⟨"A", 8, 10⟩ : Cand)] 10 = some ([mkLine ⟨"A", 8, 10⟩], 0) :=
    greedy_single_eval ⟨"A", 8, 10⟩ (by norm_num)
  exact h [] 0 [mkLine ⟨"A", 8, 10⟩] 0 he1 he2
